import Mathlib

/-!
# LA4Ice: range parser, membership filter and record predicates

A shallow embedding of `LA4Ice.c` (the overlap lister of DALIGNER, extended with the
`-E` full-length filter and the `-m` tabular output).  Machine integers are modelled by
`Int`; where the C code narrows a `long` to an `int`, or subtracts two `int`s that may
leave the 32-bit range, the result is reduced explicitly with `toInt32`.
-/

namespace LA4Ice

deriving instance DecidableEq for Except

/-! ## Machine integers -/

/-- Largest `int32` value, `INT32_MAX` of `stdint.h`. -/
def INT32_MAX : Int := 2147483647

/-- Smallest `int32` value. -/
def INT32_MIN : Int := -2147483648

/-- Largest `long` value on an LP64 platform. -/
def LONG_MAX : Int := 9223372036854775807

/-- Smallest `long` value on an LP64 platform. -/
def LONG_MIN : Int := -9223372036854775808

/-- Two's complement reduction of an integer to 32 bits: the value an `int` holds after
a `long` is assigned to it, or after an `int` operation leaves the 32-bit range. -/
def toInt32 (v : Int) : Int := (v + 2147483648) % 4294967296 - 2147483648

/-- The value `strtol` reports for a decimal numeral: clamped to the range of `long`. -/
def clampLong (v : Int) : Int :=
  if v > LONG_MAX then LONG_MAX else if v < LONG_MIN then LONG_MIN else v

/-! ## `strtol` in base 10 -/

/-- The `isspace` class of the C locale. -/
def isspace (c : Char) : Bool :=
  c == ' ' || c == '\t' || c == '\n' || c == '\x0b' || c == '\x0c' || c == '\r'

/-- The `isdigit` class. -/
def isdigit (c : Char) : Bool := decide ('0' ≤ c) && decide (c ≤ '9')

/-- Value of a decimal digit. -/
def digitVal (c : Char) : Int := (c.toNat : Int) - 48

/-- Reads the longest run of decimal digits, accumulating its value; returns the value
and the unread rest. -/
def scanDigits : List Char → Int → Int × List Char
  | [], acc => (acc, [])
  | c :: cs, acc =>
    if isdigit c then scanDigits cs (acc * 10 + digitVal c) else (acc, c :: cs)

/-- Drops the leading white space of a string. -/
def skipSpace : List Char → List Char
  | [] => []
  | c :: cs => if isspace c then skipSpace cs else c :: cs

/-- Model of `strtol(s,&end,10)`: optional white space, optional sign, decimal digits.
Returns the converted value and the text `end` points to.  When no digit is found no
conversion is done: the value is `0` and `end` is `s` itself. -/
def strtol (s : List Char) : Int × List Char :=
  match skipSpace s with
  | '-' :: r =>
    (match r with
     | c :: _ =>
       if isdigit c then (clampLong (-(scanDigits r 0).1), (scanDigits r 0).2) else (0, s)
     | [] => (0, s))
  | '+' :: r =>
    (match r with
     | c :: _ =>
       if isdigit c then (clampLong (scanDigits r 0).1, (scanDigits r 0).2) else (0, s)
     | [] => (0, s))
  | c :: r =>
    if isdigit c then (clampLong (scanDigits (c :: r) 0).1, (scanDigits (c :: r) 0).2)
    else (0, s)
  | [] => (0, s)

/-! ## Range tokens (lines 186-228) -/

/-- The three fatal diagnostics of the range parser. -/
inductive ParseError where
  /-- The message "0 is not a valid index". -/
  | ZeroIndex
  /-- The message "Empty range". -/
  | EmptyRange
  /-- The message "argument is not an integer range". -/
  | InvalidRangeToken
  deriving DecidableEq, Repr

/-- The symbol that stands for the last read. -/
def LAST_READ_SYMBOL : Char := '$'

/-- The start `b` of a token and the text `eptr` points to (lines 192-197). -/
def readStart (nreads : Int) (tok : List Char) : Int × List Char :=
  match tok with
  | c :: r =>
    if c = LAST_READ_SYMBOL then (nreads, r) else (toInt32 (strtol tok).1, (strtol tok).2)
  | [] => (toInt32 (strtol tok).1, (strtol tok).2)

/-- The end `e` of a dashed token and the text `fptr` points to (lines 209-214), given
the text after the dash. -/
def readEnd (afterDash : List Char) : Int × List Char :=
  match afterDash with
  | c :: r =>
    if c = LAST_READ_SYMBOL then (INT32_MAX, r)
    else (toInt32 (strtol afterDash).1, (strtol afterDash).2)
  | [] => (toInt32 (strtol afterDash).1, (strtol afterDash).2)

/-- One pass of the token loop (lines 192-227): the range a token contributes, or the
diagnostic the program exits with.  `nreads` is `db1->nreads`. -/
def parseToken (nreads : Int) (tok : List Char) : Except ParseError (Int × Int) :=
  let b := (readStart nreads tok).1
  let eptr := (readStart nreads tok).2
  if eptr.length < tok.length then
    if b = 0 then .error .ZeroIndex
    else
      match eptr with
      | [] => .ok (b, b)
      | c :: afterDash =>
        if c = '-' then
          let e := (readEnd afterDash).1
          let fptr := (readEnd afterDash).2
          if fptr.length < afterDash.length ∧ fptr = [] ∧ afterDash.head? ≠ some '-' then
            if b > e then .error .EmptyRange else .ok (b, e)
          else .error .InvalidRangeToken
        else .error .InvalidRangeToken
  else .error .InvalidRangeToken

/-- The token loop: ranges are collected in argument order and the first bad token ends
the run. -/
def parseArgs (nreads : Int) : List String → Except ParseError (List (Int × Int))
  | [] => .ok []
  | t :: ts =>
    match parseToken nreads t.toList with
    | .error err => .error err
    | .ok r =>
      match parseArgs nreads ts with
      | .error err => .error err
      | .ok rs => .ok (r :: rs)

/-! ## Sorting and merging the ranges (lines 230-248) -/

/-- The comparison `ORDER` handed to `qsort`: the difference of the two starts, computed
in `int`. -/
def ORDER (l r : Int × Int) : Int := toInt32 (l.1 - r.1)

/-- What `qsort(pts,reps/2,sizeof(int64),ORDER)` may leave in the array: the same
ranges, in an order `ORDER` agrees with.  The order of ranges with equal starts is not
determined. -/
def QsortResult (input output : List (Int × Int)) : Prop :=
  output.Perm input ∧ output.Pairwise (fun l r => ORDER l r ≤ 0)

/-- An executable instance of `qsort`: insertion sort with the comparison `ORDER`. -/
def qsort (input : List (Int × Int)) : List (Int × Int) :=
  input.insertionSort (fun l r => ORDER l r ≤ 0)

/-- One pass of the merge loop (lines 234-241).  `out` is the prefix `pts[0..b)` written
so far, newest boundary first, so that its head is `pts[b-1]`; `r` is the pair
`(pts[c], pts[c+1])`. -/
def mergeStep (out : List Int) (r : Int × Int) : List Int :=
  match out with
  | last :: older =>
    if last ≥ toInt32 (r.1 - 1) then
      (if r.2 > last then r.2 :: older else out)
    else r.2 :: r.1 :: out
  | [] => [r.2, r.1]

/-- The merge loop over the sorted pairs followed by the sentinel `pts[b++] = INT32_MAX`
(lines 232-243): the final boundary array `pts[0..reps)`. -/
def mergePass (sorted : List (Int × Int)) : List Int :=
  (INT32_MAX :: sorted.foldl mergeStep []).reverse

/-- The range parser (lines 186-248) with `qsort` instantiated: the boundary array
`pts[0..reps)` or the diagnostic.  Without tokens the array is `1, INT32_MAX`. -/
def rangeParser (nreads : Int) (tokens : List String) : Except ParseError (List Int) :=
  match tokens with
  | [] => .ok [1, INT32_MAX]
  | _ :: _ =>
    match parseArgs nreads tokens with
    | .error err => .error err
    | .ok parsed => .ok (mergePass (qsort parsed))

/-- The boundary arrays the range parser can end with, for any behaviour of `qsort`. -/
def ParserYields (nreads : Int) (tokens : List String) (pts : List Int) : Prop :=
  match tokens with
  | [] => pts = [1, INT32_MAX]
  | _ :: _ => ∃ parsed sorted, parseArgs nreads tokens = .ok parsed ∧
      QsortResult parsed sorted ∧ pts = mergePass sorted

/-- The ranges `[pts[0],pts[1]], [pts[2],pts[3]], ...` of a boundary array; a final
boundary without partner (the sentinel) is not a range. -/
def rangesOf : List Int → List (Int × Int)
  | s :: e :: rest => (s, e) :: rangesOf rest
  | _ => []

/-- The boundaries of a list of ranges, in array order. -/
def boundaries : List (Int × Int) → List Int
  | [] => []
  | r :: rest => r.1 :: r.2 :: boundaries rest

/-- Ranges are well formed (`start ≤ end`) and each one starts more than one past
the end of the one before it. -/
def GapSorted : List (Int × Int) → Prop
  | [] => True
  | [r] => r.1 ≤ r.2
  | r :: q :: rest => r.1 ≤ r.2 ∧ r.2 + 1 < q.1 ∧ GapSorted (q :: rest)

instance decGapSorted : (rs : List (Int × Int)) → Decidable (GapSorted rs)
  | [] => isTrue trivial
  | [r] => inferInstanceAs (Decidable (r.1 ≤ r.2))
  | r :: q :: rest =>
    have : Decidable (GapSorted (q :: rest)) := decGapSorted (q :: rest)
    inferInstanceAs (Decidable (r.1 ≤ r.2 ∧ r.2 + 1 < q.1 ∧ GapSorted (q :: rest)))

/-- A normalized boundary array: gap-sorted ranges followed by the `INT32_MAX`
sentinel. -/
def Normalized (pts : List Int) : Prop :=
  pts = boundaries (rangesOf pts) ++ [INT32_MAX] ∧ GapSorted (rangesOf pts)

instance (pts : List Int) : Decidable (Normalized pts) :=
  inferInstanceAs
    (Decidable (pts = boundaries (rangesOf pts) ++ [INT32_MAX] ∧ GapSorted (rangesOf pts)))

/-- Brute-force membership: does `i` lie in some range, both ends inclusive? -/
def inSomeRange (rs : List (Int × Int)) (i : Int) : Bool :=
  rs.any (fun r => decide (r.1 ≤ i) && decide (i ≤ r.2))

/-! ## The streaming membership filter (lines 317-319 and 366-388) -/

/-- The filter variables `in`, `npt` and `idx`. -/
structure FilterState where
  /-- The flag `in`: the last record was selected. -/
  inside : Bool
  /-- The boundary `npt` the next record is compared with. -/
  npt : Int
  /-- The cursor `idx` into `pts`. -/
  idx : Nat
  deriving DecidableEq, Repr

/-- Ways the filter model can fail to deliver a state. -/
inductive FilterFault where
  /-- A read `pts[idx]` with `idx` not below `reps`. -/
  | OutOfBounds
  /-- The iteration budget of the model ran out (never the case for a budget above
  `reps`, since each iteration moves `idx` forward). -/
  | Budget
  deriving DecidableEq, Repr

/-- The loop `while (ar > npt)` of the selected state (lines 368-375). -/
def scanInside (pts : List Int) (ar : Int) :
    Nat → Int → Nat → Except FilterFault FilterState
  | 0, _, _ => .error .Budget
  | fuel + 1, npt, idx =>
    if ar > npt then
      match pts[idx]? with
      | none => .error .OutOfBounds
      | some npt1 =>
        if ar < npt1 then .ok ⟨false, npt1, idx + 1⟩
        else
          match pts[idx + 1]? with
          | none => .error .OutOfBounds
          | some npt2 => scanInside pts ar fuel npt2 (idx + 2)
    else .ok ⟨true, npt, idx⟩

/-- The loop `while (ar >= npt)` of the unselected state (lines 378-385). -/
def scanOutside (pts : List Int) (ar : Int) :
    Nat → Int → Nat → Except FilterFault FilterState
  | 0, _, _ => .error .Budget
  | fuel + 1, npt, idx =>
    if ar ≥ npt then
      match pts[idx]? with
      | none => .error .OutOfBounds
      | some npt1 =>
        if ar ≤ npt1 then .ok ⟨true, npt1, idx + 1⟩
        else
          match pts[idx + 1]? with
          | none => .error .OutOfBounds
          | some npt2 => scanOutside pts ar fuel npt2 (idx + 2)
    else .ok ⟨false, npt, idx⟩

/-- The filter step for one record with primary index `ar = aread+1` (lines 366-386);
the record is displayed when the new state has `inside` set. -/
def filterRecord (pts : List Int) (st : FilterState) (ar : Int) :
    Except FilterFault FilterState :=
  if st.inside then scanInside pts ar (pts.length + 1) st.npt st.idx
  else scanOutside pts ar (pts.length + 1) st.npt st.idx

/-- The filter variables before the first record (lines 317-319). -/
def initFilter (pts : List Int) : Except FilterFault FilterState :=
  match pts[0]? with
  | none => .error .OutOfBounds
  | some npt => .ok ⟨false, npt, 1⟩

/-- The filter states after each record of a stream, in stream order. -/
def filterStream (pts : List Int) :
    FilterState → List Int → Except FilterFault (List FilterState)
  | _, [] => .ok []
  | st, ar :: ars =>
    match filterRecord pts st ar with
    | .error f => .error f
    | .ok st1 =>
      match filterStream pts st1 ars with
      | .error f => .error f
      | .ok sts => .ok (st1 :: sts)

/-- The filter run over a whole stream of primary indices. -/
def runFilter (pts : List Int) (ars : List Int) : Except FilterFault (List FilterState) :=
  match initFilter pts with
  | .error f => .error f
  | .ok st => filterStream pts st ars

/-- The selection flags of a run: `true` for the records that are displayed. -/
def selected (pts : List Int) (ars : List Int) : Except FilterFault (List Bool) :=
  match runFilter pts ars with
  | .error f => .error f
  | .ok sts => .ok (sts.map (fun st => st.inside))

/-! ## Overlap records (lines 390-439) -/

/-- The data of one overlap record the selection and the tabular output look at.
`Overlap`, `Path` and the read tables are declared in `align.h` and `DB.h`; their fields
are taken as integers. -/
structure OverlapRecord where
  /-- The field `ovl->path.abpos`. -/
  abpos : Int
  /-- The field `ovl->path.aepos`. -/
  aepos : Int
  /-- The field `ovl->path.bbpos`. -/
  bbpos : Int
  /-- The field `ovl->path.bepos`. -/
  bepos : Int
  /-- The test `COMP(ovl->flags)`. -/
  comp : Bool
  /-- The length `db1->reads[ovl->aread].rlen`, also `aln->alen`. -/
  alen : Int
  /-- The length `db2->reads[ovl->bread].rlen`, also `aln->blen`. -/
  blen : Int
  deriving DecidableEq, Repr

/-- Reflection of subject coordinates around the read length (lines 393-394):
`bbpos = rlen - path.bepos`, `bepos = rlen - path.bbpos`. -/
def reflect (rlen : Int) (c : Int × Int) : Int × Int := (rlen - c.2, rlen - c.1)

/-- The local pair `(bbpos, bepos)` of lines 391-398: the stored subject coordinates,
reflected when the complement flag is set. -/
def subjectCoords (o : OverlapRecord) : Int × Int :=
  if o.comp then reflect o.blen (o.bbpos, o.bepos) else (o.bbpos, o.bepos)

/-- The full-length test of lines 400-411: `false` when a `continue` drops the record.
`ICE_FL` is the option `-E`. -/
def passesFullLength (ICE_FL : Bool) (o : OverlapRecord) : Bool :=
  if ICE_FL then
    if o.abpos > 200 ∨ (subjectCoords o).1 > 200 then false
    else if o.aepos + 50 < o.alen then false
    else if (subjectCoords o).2 + 50 < o.blen then false
    else true
  else true

/-- The three labels that end a line of the tabular output. -/
inductive Containment where
  /-- The label `contains`. -/
  | contains
  /-- The label `contained`. -/
  | contained
  /-- The label `overlap`. -/
  | overlap
  deriving DecidableEq, Repr

/-- The label chosen at lines 428-439, from the stored coordinates `ovl->path.*`. -/
def classify (o : OverlapRecord) : Containment :=
  if o.blen < o.alen ∧ o.bbpos < 1 ∧ o.blen - o.bepos < 1 then .contains
  else if o.alen < o.blen ∧ o.abpos < 1 ∧ o.alen - o.aepos < 1 then .contained
  else .overlap

/-- The coordinate invariant of an overlap record: `0 ≤ begin ≤ end ≤ length` on both
reads. -/
def OverlapRecord.WellFormed (o : OverlapRecord) : Prop :=
  0 ≤ o.abpos ∧ o.abpos ≤ o.aepos ∧ o.aepos ≤ o.alen ∧
  0 ≤ o.bbpos ∧ o.bbpos ≤ o.bepos ∧ o.bepos ≤ o.blen

instance (o : OverlapRecord) : Decidable o.WellFormed :=
  inferInstanceAs (Decidable (0 ≤ o.abpos ∧ o.abpos ≤ o.aepos ∧ o.aepos ≤ o.alen ∧
    0 ≤ o.bbpos ∧ o.bbpos ≤ o.bepos ∧ o.bepos ≤ o.blen))

/-! ## Header and trace buffer (lines 261-273, 312 and 354-362) -/

/-- The flag `small` and the element width `tbytes` chosen from the trace spacing (lines
266-273); the widths are `sizeof(uint8)` and `sizeof(uint16)`.  `TRACE_XOVR` is a constant
of `align.h` and is taken as a parameter. -/
def traceWidth (TRACE_XOVR tspace : Int) : Bool × Int :=
  if tspace ≤ TRACE_XOVR then (true, 1) else (false, 2)

/-- The capacity `tmax` the trace buffer starts with (line 312). -/
def INITIAL_TMAX : Int := 1000

/-- The constant `(int) 1.2` of line 356.  The cast binds tighter than the product, so
it applies to the literal alone: the `double` nearest to `1.2` is
`5404319552844595 / 2^52`, and the conversion to `int` drops its fraction. -/
def CAST_1_2 : Int := Int.tdiv 5404319552844595 4503599627370496

/-- The capacity `tmax` after the growth step of lines 355-360 for a record with trace
length `tlen`: `tmax = ((int) 1.2*tlen) + 100` when `tlen > tmax`.  The variable `tmax`
is an `int` (line 290), so the value it receives is reduced to 32 bits. -/
def growTmax (tmax tlen : Int) : Int :=
  if tlen > tmax then toInt32 (CAST_1_2 * tlen + 100) else tmax

/-- The capacities after each record of a run, given the capacity before the first
record and the trace lengths of the records in file order. -/
def capacities : Int → List Int → List Int
  | _, [] => []
  | tmax, tlen :: rest => growTmax tmax tlen :: capacities (growTmax tmax tlen) rest

/-- Every capacity of `caps` is at least the capacity before it (`prev` for the first)
and at least the trace length of its record. -/
def NeverShrinks : Int → List Int → List Int → Prop
  | _, [], [] => True
  | prev, tlen :: tlens, cap :: caps => prev ≤ cap ∧ tlen ≤ cap ∧ NeverShrinks cap tlens caps
  | _, _, _ => False

instance decNeverShrinks : (prev : Int) → (tlens caps : List Int) →
    Decidable (NeverShrinks prev tlens caps)
  | _, [], [] => isTrue trivial
  | prev, tlen :: tlens, cap :: caps =>
    have : Decidable (NeverShrinks cap tlens caps) := decNeverShrinks cap tlens caps
    inferInstanceAs (Decidable (prev ≤ cap ∧ tlen ≤ cap ∧ NeverShrinks cap tlens caps))
  | _, [], _ :: _ => isFalse (fun h => h)
  | _, _ :: _, [] => isFalse (fun h => h)

/-! ## Display windows (lines 481-496) -/

/-- The four `int` bounds of the sequence windows handed to `Load_Subread`. -/
structure Window where
  /-- The bound `amin`. -/
  amin : Int
  /-- The bound `amax`. -/
  amax : Int
  /-- The bound `bmin`. -/
  bmin : Int
  /-- The bound `bmax`. -/
  bmax : Int
  deriving DecidableEq, Repr

/-- Lower window bound: `x = pos - BORDER; if (x < 0) x = 0;` with `x` an `int`. -/
def clipLow (pos BORDER : Int) : Int :=
  if toInt32 (pos - BORDER) < 0 then 0 else toInt32 (pos - BORDER)

/-- Upper window bound: `x = pos + BORDER; if (x > len) x = len;` with `x` an `int`. -/
def clipHigh (pos BORDER len : Int) : Int :=
  if toInt32 (pos + BORDER) > len then len else toInt32 (pos + BORDER)

/-- The windows of lines 481-496, from the path coordinates and lengths as they stand
there; `BORDER` is the option `-b`. -/
def displayWindow (BORDER : Int) (o : OverlapRecord) : Window :=
  if o.comp then
    { amin := clipLow o.abpos BORDER
      amax := clipHigh o.aepos BORDER o.alen
      bmin := clipLow (o.blen - o.bepos) BORDER
      bmax := clipHigh (o.blen - o.bbpos) BORDER o.blen }
  else
    { amin := clipLow o.abpos BORDER
      amax := clipHigh o.aepos BORDER o.alen
      bmin := clipLow o.bbpos BORDER
      bmax := clipHigh o.bepos BORDER o.blen }

/-! ## The label on other subject coordinates -/

/-- The test of lines 428-439 with the subject coordinates `c` in the place of the
stored `ovl->path.bbpos`, `ovl->path.bepos`. -/
def classifyAt (o : OverlapRecord) (c : Int × Int) : Containment :=
  if o.blen < o.alen ∧ c.1 < 1 ∧ o.blen - c.2 < 1 then .contains
  else if o.alen < o.blen ∧ o.abpos < 1 ∧ o.alen - o.aepos < 1 then .contained
  else .overlap

/-! ## The guarded record loop (lines 286-556) -/

/-- Ways the record loop can fail to complete. -/
inductive RunFault where
  /-- An integer division with divisor `0`. -/
  | DivisionByZero
  /-- A fault of the membership filter. -/
  | Filter (f : FilterFault)
  deriving DecidableEq, Repr

/-- Integer division of C: the quotient truncated toward zero, undefined for the
divisor `0`. -/
def cdiv (a b : Int) : Except RunFault Int :=
  if b = 0 then .error .DivisionByZero else .ok (Int.tdiv a b)

/-- The argument of `Number_Digits` for `tp_wide` (lines 325-334): `maxlen/tspace+2` for
the smaller of the two `maxlen`. -/
def tpWideArg (maxlen1 maxlen2 tspace : Int) : Except RunFault Int :=
  match (if maxlen1 < maxlen2 then cdiv maxlen1 tspace else cdiv maxlen2 tspace) with
  | .error e => .error e
  | .ok q => .ok (q + 2)

/-- The trace-point count `tps` of line 418. -/
def tracePoints (o : OverlapRecord) (tspace : Int) : Except RunFault Int :=
  match cdiv (o.aepos - 1) tspace with
  | .error e => .error e
  | .ok q1 =>
    match cdiv o.abpos tspace with
    | .error e => .error e
    | .ok q2 => .ok (q1 - q2)

/-- The loop over the records (lines 350-548).  A record is its primary index
`ar = aread+1` and its coordinates.  The result has one entry per record read: `none`
when a `continue` skips it, the trace-point count when it is displayed. -/
def recordLoop (pts : List Int) (ICE_FL : Bool) (tspace : Int) :
    FilterState → List (Int × OverlapRecord) → Except RunFault (List (Option Int))
  | _, [] => .ok []
  | st, rec :: rest =>
    match filterRecord pts st rec.1 with
    | .error f => .error (.Filter f)
    | .ok st1 =>
      if st1.inside = false ∨ passesFullLength ICE_FL rec.2 = false then
        match recordLoop pts ICE_FL tspace st1 rest with
        | .error e => .error e
        | .ok outs => .ok (none :: outs)
      else
        match tracePoints rec.2 tspace with
        | .error e => .error e
        | .ok tps =>
          match recordLoop pts ICE_FL tspace st1 rest with
          | .error e => .error e
          | .ok outs => .ok (some tps :: outs)

/-- The block guarded by `if (tspace > 0)` (lines 286-556): filter initialisation, the
column width `tp_wide`, then the record loop.  `maxlen1`, `maxlen2` are `db1->maxlen` and
`db2->maxlen`; `records` are the records of the file. -/
def displayRecords (pts : List Int) (ICE_FL : Bool) (tspace maxlen1 maxlen2 : Int)
    (records : List (Int × OverlapRecord)) : Except RunFault (List (Option Int)) :=
  if tspace > 0 then
    match initFilter pts with
    | .error f => .error (.Filter f)
    | .ok st =>
      match tpWideArg maxlen1 maxlen2 tspace with
      | .error e => .error e
      | .ok _ => recordLoop pts ICE_FL tspace st records
  else .ok []

/-! ## Tokens one by one -/

/-- The range a token contributes to the token loop, `none` for a token that ends the
run. -/
def acceptedRange (nreads : Int) (t : String) : Option (Int × Int) :=
  match parseToken nreads t.toList with
  | .error _ => none
  | .ok r => some r

/-! ## The token grammar of the specification -/

/-- A decimal numeral: a non-empty run of decimal digits. -/
def isDecimal (s : List Char) : Bool := !s.isEmpty && s.all isdigit

/-- The number a decimal numeral denotes. -/
def decimalValue (s : List Char) : Int := s.foldl (fun acc c => acc * 10 + digitVal c) 0

/-- An endpoint of a range token: a decimal numeral or the last-read symbol. -/
def isEndpoint (s : List Char) : Bool := isDecimal s || s == [LAST_READ_SYMBOL]

/-- The range tokens of the specification: one endpoint, or two endpoints joined by a
dash. -/
def wellFormedToken (tok : List Char) : Bool :=
  isEndpoint tok ||
    (match tok.dropWhile (fun c => c != '-') with
     | [] => false
     | _ :: e => isEndpoint (tok.takeWhile (fun c => c != '-')) && isEndpoint e)

/-! ## Closed form of the filter loops -/

/-- The boundary `npt` held while the cursor waits in front of the ranges `rest`: the
start of the first of them, or the sentinel. -/
def headBoundary : List (Int × Int) → Int
  | [] => INT32_MAX
  | r :: _ => r.1

/-- Closed form of both filter loops: with `p` boundaries already behind the cursor and
the ranges `rest` ahead, the state in which a scan for `ar` stops. -/
def locate (ar : Int) : List (Int × Int) → Nat → FilterState
  | [], p => ⟨false, INT32_MAX, p + 1⟩
  | r :: rest, p =>
    if ar < r.1 then ⟨false, r.1, p + 1⟩
    else if ar ≤ r.2 then ⟨true, r.2, p + 2⟩
    else locate ar rest (p + 2)

/-- The filter states that can hold after a record with primary index `lo` over the
ranges `rs`: the ranges behind the cursor all end below `lo`, and the cursor either waits
at the start of the next range (or at the sentinel), or sits at the end of a range that
starts at or below `lo`. -/
def StateAt (rs : List (Int × Int)) (lo : Int) (st : FilterState) : Prop :=
  ∃ done rest, rs = done ++ rest ∧ (∀ r ∈ done, r.2 < lo) ∧
    (st = ⟨false, headBoundary rest, 2 * done.length + 1⟩ ∨
     ∃ r rest1, rest = r :: rest1 ∧ r.1 ≤ lo ∧ st = ⟨true, r.2, 2 * done.length + 2⟩)

/-! ## Closed form of the merge loop -/

/-- Closed form of the merge loop once a range `cur` is open at the end of the written
prefix: the ranges the loop leaves for `cur` followed by `rest`. -/
def mergeFrom (cur : Int × Int) : List (Int × Int) → List (Int × Int)
  | [] => [cur]
  | r :: rest =>
    if cur.2 ≥ toInt32 (r.1 - 1) then
      mergeFrom (cur.1, if r.2 > cur.2 then r.2 else cur.2) rest
    else cur :: mergeFrom r rest

/-- Closed form of the merge loop: the ranges it leaves in front of the sentinel. -/
def mergeRanges : List (Int × Int) → List (Int × Int)
  | [] => []
  | r :: rest => mergeFrom r rest

/-! ## Boundary arrays -/

theorem boundaries_append (xs ys : List (Int × Int)) :
    boundaries (xs ++ ys) = boundaries xs ++ boundaries ys := by
  induction xs with
  | nil => rfl
  | cons r xs ih => simp [boundaries, ih]

theorem boundaries_length (xs : List (Int × Int)) :
    (boundaries xs).length = 2 * xs.length := by
  induction xs with
  | nil => rfl
  | cons r xs ih => simp [boundaries, ih]; omega

theorem rangesOf_boundaries_sentinel (rs : List (Int × Int)) (x : Int) :
    rangesOf (boundaries rs ++ [x]) = rs := by
  induction rs with
  | nil => rfl
  | cons r rs ih => simp [boundaries, rangesOf, ih]

/-! ## Gap-sorted range lists -/

theorem GapSorted.tail {r : Int × Int} {rs : List (Int × Int)} (h : GapSorted (r :: rs)) :
    GapSorted rs := by
  cases rs with
  | nil => trivial
  | cons q rest => exact h.2.2

theorem GapSorted.head_le {r : Int × Int} {rs : List (Int × Int)} (h : GapSorted (r :: rs)) :
    r.1 ≤ r.2 := by
  cases rs with
  | nil => exact h
  | cons q rest => exact h.1

theorem GapSorted.head_gap {r : Int × Int} {rs : List (Int × Int)} (h : GapSorted (r :: rs)) :
    ∀ q ∈ rs, r.2 + 1 < q.1 := by
  induction rs generalizing r with
  | nil => simp
  | cons q rest ih =>
    intro x hx
    have h1 : r.2 + 1 < q.1 := h.2.1
    rcases List.mem_cons.1 hx with rfl | hx
    · exact h1
    · have h2 := ih h.2.2 x hx
      have h3 : q.1 ≤ q.2 := (GapSorted.head_le h.2.2)
      omega

theorem GapSorted.of_append_right {xs ys : List (Int × Int)} (h : GapSorted (xs ++ ys)) :
    GapSorted ys := by
  induction xs with
  | nil => exact h
  | cons r xs ih => exact ih (GapSorted.tail h)

/-! ## The iteration budget is never the limit -/

theorem scanInside_budget (pts : List Int) (ar : Int) :
    ∀ (fuel : Nat) (npt : Int) (idx : Nat), pts.length + 1 ≤ fuel + idx → 1 ≤ fuel →
      scanInside pts ar fuel npt idx ≠ .error .Budget := by
  intro fuel
  induction fuel with
  | zero => intro npt idx _ h; omega
  | succ f ih =>
    intro npt idx hsum _
    simp only [scanInside]
    split
    · split
      · simp
      · split
        · simp
        · split
          · simp
          · rename_i npt2 h2
            have hlt : idx + 1 < pts.length := by
              by_contra hge
              rw [List.getElem?_eq_none (by omega)] at h2
              exact absurd h2 (by simp)
            exact ih npt2 (idx + 2) (by omega) (by omega)
    · simp

theorem scanOutside_budget (pts : List Int) (ar : Int) :
    ∀ (fuel : Nat) (npt : Int) (idx : Nat), pts.length + 1 ≤ fuel + idx → 1 ≤ fuel →
      scanOutside pts ar fuel npt idx ≠ .error .Budget := by
  intro fuel
  induction fuel with
  | zero => intro npt idx _ h; omega
  | succ f ih =>
    intro npt idx hsum _
    simp only [scanOutside]
    split
    · split
      · simp
      · split
        · simp
        · split
          · simp
          · rename_i npt2 h2
            have hlt : idx + 1 < pts.length := by
              by_contra hge
              rw [List.getElem?_eq_none (by omega)] at h2
              exact absurd h2 (by simp)
            exact ih npt2 (idx + 2) (by omega) (by omega)
    · simp

/-- The budget `reps + 1` of a filter step is never used up: a step fails only by a read
outside the array. -/
theorem filterRecord_budget (pts : List Int) (st : FilterState) (ar : Int) :
    filterRecord pts st ar ≠ .error .Budget := by
  unfold filterRecord
  split
  · exact scanInside_budget pts ar _ _ _ (by omega) (by omega)
  · exact scanOutside_budget pts ar _ _ _ (by omega) (by omega)

/-! ## The filter loops compute `locate` -/

theorem getElem?_after (pre tl : List Int) (k : Nat) :
    (pre ++ tl)[pre.length + k]? = tl[k]? := by
  rw [List.getElem?_append_right (by omega)]
  congr 1
  omega

theorem scanOutside_locate (ar : Int) (har : ar < INT32_MAX) :
    ∀ (rest : List (Int × Int)) (pre : List Int) (fuel : Nat), rest.length < fuel →
      scanOutside (pre ++ (boundaries rest ++ [INT32_MAX])) ar fuel (headBoundary rest)
        (pre.length + 1) = .ok (locate ar rest pre.length) := by
  intro rest
  induction rest with
  | nil =>
    intro pre fuel hf
    obtain ⟨f, rfl⟩ : ∃ f, fuel = f + 1 := ⟨fuel - 1, by omega⟩
    simp only [scanOutside, headBoundary, locate]
    rw [if_neg (by omega)]
  | cons r rest ih =>
    intro pre fuel hf
    obtain ⟨f, rfl⟩ : ∃ f, fuel = f + 1 := ⟨fuel - 1, by omega⟩
    have hf1 : rest.length < f := by simpa using hf
    have e1 : (pre ++ (boundaries (r :: rest) ++ [INT32_MAX]))[pre.length + 1]? = some r.2 := by
      rw [getElem?_after]; simp [boundaries]
    have e2 : (pre ++ (boundaries (r :: rest) ++ [INT32_MAX]))[pre.length + 1 + 1]? =
        some (headBoundary rest) := by
      rw [show pre.length + 1 + 1 = pre.length + 2 by omega, getElem?_after]
      cases rest <;> simp [boundaries, headBoundary]
    have e3 : pre ++ (boundaries (r :: rest) ++ [INT32_MAX]) =
        (pre ++ [r.1, r.2]) ++ (boundaries rest ++ [INT32_MAX]) := by
      simp [boundaries]
    simp only [scanOutside, headBoundary, locate]
    by_cases h1 : ar < r.1
    · rw [if_neg (by omega), if_pos h1]
    · rw [if_pos (by omega), if_neg h1, e1]
      simp only
      by_cases h2 : ar ≤ r.2
      · rw [if_pos h2, if_pos h2]
      · rw [if_neg h2, if_neg h2, e2]
        simp only
        have := ih (pre ++ [r.1, r.2]) f hf1
        rw [← e3] at this
        simpa using this

theorem scanInside_locate (ar : Int) (har : ar < INT32_MAX) :
    ∀ (rest : List (Int × Int)) (pre : List Int) (s e : Int) (fuel : Nat),
      rest.length + 1 < fuel →
      scanInside (pre ++ s :: e :: (boundaries rest ++ [INT32_MAX])) ar fuel e
        (pre.length + 2) =
        .ok (if ar ≤ e then ⟨true, e, pre.length + 2⟩ else locate ar rest (pre.length + 2)) := by
  intro rest
  induction rest with
  | nil =>
    intro pre s e fuel hf
    obtain ⟨f, rfl⟩ : ∃ f, fuel = f + 1 := ⟨fuel - 1, by omega⟩
    have e1 : (pre ++ s :: e :: (boundaries [] ++ [INT32_MAX]))[pre.length + 2]? =
        some INT32_MAX := by
      rw [getElem?_after]; simp [boundaries]
    simp only [scanInside, locate]
    by_cases h1 : ar ≤ e
    · rw [if_neg (by omega), if_pos h1]
    · rw [if_pos (by omega), if_neg h1, e1]
      simp only
      rw [if_pos har]
  | cons r rest ih =>
    intro pre s e fuel hf
    obtain ⟨f, rfl⟩ : ∃ f, fuel = f + 1 := ⟨fuel - 1, by omega⟩
    have hf1 : rest.length + 1 < f := by simpa using hf
    have e1 : (pre ++ s :: e :: (boundaries (r :: rest) ++ [INT32_MAX]))[pre.length + 2]? =
        some r.1 := by
      rw [getElem?_after]; simp [boundaries]
    have e2 : (pre ++ s :: e :: (boundaries (r :: rest) ++ [INT32_MAX]))[pre.length + 2 + 1]? =
        some r.2 := by
      rw [show pre.length + 2 + 1 = pre.length + 3 by omega, getElem?_after]; simp [boundaries]
    have e3 : pre ++ s :: e :: (boundaries (r :: rest) ++ [INT32_MAX]) =
        (pre ++ [s, e]) ++ r.1 :: r.2 :: (boundaries rest ++ [INT32_MAX]) := by
      simp [boundaries]
    simp only [scanInside, locate]
    by_cases h1 : ar ≤ e
    · rw [if_neg (by omega), if_pos h1]
    · rw [if_pos (by omega), if_neg h1, e1]
      simp only
      by_cases h2 : ar < r.1
      · rw [if_pos h2, if_pos h2]
      · rw [if_neg h2, if_neg h2, e2]
        simp only
        have := ih (pre ++ [s, e]) r.1 r.2 f hf1
        rw [← e3] at this
        simpa using this

theorem inSomeRange_eq_false {rs : List (Int × Int)} {i : Int}
    (h : ∀ r ∈ rs, i < r.1 ∨ r.2 < i) : inSomeRange rs i = false := by
  unfold inSomeRange
  rw [List.any_eq_false]
  intro r hr
  rcases h r hr with h1 | h1 <;> simp <;> omega

theorem inSomeRange_eq_true {rs : List (Int × Int)} {i : Int} {r : Int × Int}
    (hr : r ∈ rs) (h1 : r.1 ≤ i) (h2 : i ≤ r.2) : inSomeRange rs i = true := by
  unfold inSomeRange
  rw [List.any_eq_true]
  exact ⟨r, hr, by simp [h1, h2]⟩

/-- Where `locate` stops is a state of the invariant, its flag is the brute-force
membership, and the cursor stays within the array. -/
theorem locate_spec (rs : List (Int × Int)) (hrs : GapSorted rs) (ar : Int) :
    ∀ (rest done : List (Int × Int)), rs = done ++ rest → (∀ r ∈ done, r.2 < ar) →
      StateAt rs ar (locate ar rest (2 * done.length)) ∧
      (locate ar rest (2 * done.length)).inside = inSomeRange rs ar ∧
      2 * done.length + 1 ≤ (locate ar rest (2 * done.length)).idx ∧
      (locate ar rest (2 * done.length)).idx ≤ 2 * rs.length + 1 := by
  intro rest
  induction rest with
  | nil =>
    intro done hsplit hdone
    simp only [locate]
    refine ⟨⟨done, [], hsplit, hdone, Or.inl rfl⟩, ?_, le_refl _, ?_⟩
    · symm
      apply inSomeRange_eq_false
      intro r hr
      rw [hsplit, List.append_nil] at hr
      exact Or.inr (hdone r hr)
    · rw [hsplit]; simp
  | cons r rest ih =>
    intro done hsplit hdone
    have hg : GapSorted (r :: rest) := by
      rw [hsplit] at hrs; exact GapSorted.of_append_right hrs
    simp only [locate]
    by_cases h1 : ar < r.1
    · rw [if_pos h1]
      refine ⟨⟨done, r :: rest, hsplit, hdone, Or.inl rfl⟩, ?_, le_refl _, ?_⟩
      · symm
        apply inSomeRange_eq_false
        intro q hq
        rw [hsplit] at hq
        rcases List.mem_append.1 hq with hq | hq
        · exact Or.inr (hdone q hq)
        · rcases List.mem_cons.1 hq with rfl | hq
          · exact Or.inl h1
          · have := hg.head_gap q hq
            have := hg.head_le
            left; omega
      · rw [hsplit]; simp
    · rw [if_neg h1]
      by_cases h2 : ar ≤ r.2
      · rw [if_pos h2]
        refine ⟨⟨done, r :: rest, hsplit, hdone, Or.inr ⟨r, rest, rfl, by omega, rfl⟩⟩, ?_, ?_, ?_⟩
        · symm
          exact inSomeRange_eq_true (r := r) (by rw [hsplit]; simp) (by omega) h2
        · simp
        · rw [hsplit]; simp; omega
      · rw [if_neg h2]
        have hsplit1 : rs = (done ++ [r]) ++ rest := by rw [hsplit]; simp
        have hdone1 : ∀ q ∈ done ++ [r], q.2 < ar := by
          intro q hq
          rcases List.mem_append.1 hq with hq | hq
          · exact hdone q hq
          · rw [List.mem_singleton.1 hq]; omega
        have := ih (done ++ [r]) hsplit1 hdone1
        have e : 2 * (done ++ [r]).length = 2 * done.length + 2 := by simp; omega
        rw [e] at this
        refine ⟨this.1, this.2.1, by omega, this.2.2.2⟩

/-- One record: from a state of the invariant the filter step succeeds, lands in a state
of the invariant, flags the record by brute-force membership and moves the cursor
forward only, never past the end of the array. -/
theorem filterRecord_spec (rs : List (Int × Int)) (hrs : GapSorted rs) (lo ar : Int)
    (st : FilterState) (hst : StateAt rs lo st) (hlo : lo ≤ ar) (har : ar < INT32_MAX) :
    ∃ st1, filterRecord (boundaries rs ++ [INT32_MAX]) st ar = .ok st1 ∧
      StateAt rs ar st1 ∧ st1.inside = inSomeRange rs ar ∧
      st.idx ≤ st1.idx ∧ st1.idx ≤ 2 * rs.length + 1 := by
  obtain ⟨done, rest, hsplit, hdone, hcase⟩ := hst
  have hdone1 : ∀ r ∈ done, r.2 < ar := fun r hr => lt_of_lt_of_le (hdone r hr) hlo
  have hpts : boundaries rs ++ [INT32_MAX] =
      boundaries done ++ (boundaries rest ++ [INT32_MAX]) := by
    rw [hsplit, boundaries_append, List.append_assoc]
  have hlen : (boundaries rs ++ [INT32_MAX]).length = 2 * rs.length + 1 := by
    simp [boundaries_length]
  have hrl : rest.length ≤ rs.length := by rw [hsplit]; simp
  rcases hcase with rfl | ⟨r, rest1, rfl, hr1, rfl⟩
  · have h := scanOutside_locate ar har rest (boundaries done)
      ((boundaries rs ++ [INT32_MAX]).length + 1) (by omega)
    rw [boundaries_length, ← hpts] at h
    have hs := locate_spec rs hrs ar rest done hsplit hdone1
    refine ⟨_, ?_, hs.1, hs.2.1, hs.2.2.1, hs.2.2.2⟩
    simp only [filterRecord]
    exact h
  · have h := scanInside_locate ar har rest1 (boundaries done) r.1 r.2
      ((boundaries rs ++ [INT32_MAX]).length + 1) (by simp at hrl; omega)
    have hpts1 : boundaries rs ++ [INT32_MAX] =
        boundaries done ++ r.1 :: r.2 :: (boundaries rest1 ++ [INT32_MAX]) := by
      rw [hpts]; simp [boundaries]
    rw [boundaries_length, ← hpts1] at h
    simp only [filterRecord]
    rw [if_pos trivial, h]
    by_cases h2 : ar ≤ r.2
    · rw [if_pos h2]
      refine ⟨_, rfl, ⟨done, r :: rest1, hsplit, hdone1, Or.inr ⟨r, rest1, rfl, by omega, rfl⟩⟩,
        ?_, le_refl _, ?_⟩
      · symm
        exact inSomeRange_eq_true (r := r) (by rw [hsplit]; simp) (by omega) h2
      · have hl : rs.length = done.length + (rest1.length + 1) := by rw [hsplit]; simp
        simp only; omega
    · rw [if_neg h2]
      have hsplit1 : rs = (done ++ [r]) ++ rest1 := by rw [hsplit]; simp
      have hdone2 : ∀ q ∈ done ++ [r], q.2 < ar := by
        intro q hq
        rcases List.mem_append.1 hq with hq | hq
        · exact hdone1 q hq
        · rw [List.mem_singleton.1 hq]; omega
      have hs := locate_spec rs hrs ar rest1 (done ++ [r]) hsplit1 hdone2
      have e : 2 * (done ++ [r]).length = 2 * done.length + 2 := by simp; omega
      rw [e] at hs
      exact ⟨_, rfl, hs.1, hs.2.1, by have := hs.2.2.1; omega, hs.2.2.2⟩

/-- The whole stream: the run succeeds, the flags are the brute-force membership of each
record, and the cursor positions form a non-decreasing sequence bounded by the array
length. -/
theorem filterStream_spec (rs : List (Int × Int)) (hrs : GapSorted rs) :
    ∀ (ars : List Int) (lo : Int) (st : FilterState), StateAt rs lo st →
      (lo :: ars).Pairwise (fun a b => a ≤ b) → (∀ a ∈ ars, a < INT32_MAX) →
      ∃ sts, filterStream (boundaries rs ++ [INT32_MAX]) st ars = .ok sts ∧
        sts.map (fun s => s.inside) = ars.map (inSomeRange rs) ∧
        (st.idx :: sts.map (fun s => s.idx)).Chain' (fun a b => a ≤ b) ∧
        ∀ s ∈ sts, s.idx ≤ 2 * rs.length + 1 := by
  intro ars
  induction ars with
  | nil =>
    intro lo st _ _ _
    exact ⟨[], rfl, rfl, by simp, by simp⟩
  | cons ar ars ih =>
    intro lo st hst hsorted hmax
    have hlo : lo ≤ ar := (List.pairwise_cons.1 hsorted).1 ar (by simp)
    have hsorted1 : (ar :: ars).Pairwise (fun a b => a ≤ b) := (List.pairwise_cons.1 hsorted).2
    obtain ⟨st1, h1, hst1, hin, hidx, hbound⟩ :=
      filterRecord_spec rs hrs lo ar st hst hlo (hmax ar (by simp))
    obtain ⟨sts, h2, hflags, hchain, hall⟩ :=
      ih ar st1 hst1 hsorted1 (fun a ha => hmax a (by simp [ha]))
    refine ⟨st1 :: sts, ?_, ?_, ?_, ?_⟩
    · simp only [filterStream, h1, h2]
    · simp [hin, hflags]
    · simp only [List.map_cons]
      exact List.Chain'.cons hidx hchain
    · intro s hs
      rcases List.mem_cons.1 hs with rfl | hs
      · exact hbound
      · exact hall s hs

/-- A normalized array starts the filter in a state of the invariant. -/
theorem initFilter_spec (rs : List (Int × Int)) (lo : Int) :
    ∃ st, initFilter (boundaries rs ++ [INT32_MAX]) = .ok st ∧ StateAt rs lo st ∧ st.idx = 1 := by
  refine ⟨⟨false, headBoundary rs, 1⟩, ?_, ⟨[], rs, rfl, by simp, Or.inl rfl⟩, rfl⟩
  cases rs <;> simp [initFilter, boundaries, headBoundary]

/-! ## The filter over a normalized array -/

theorem pairwise_le_dup {a : Int} {ars : List Int}
    (hsorted : (a :: ars).Pairwise (fun a b => a ≤ b)) :
    (a :: a :: ars).Pairwise (fun a b => a ≤ b) := by
  refine List.pairwise_cons.2 ⟨?_, hsorted⟩
  intro b hb
  rcases List.mem_cons.1 hb with rfl | hb
  · exact le_refl _
  · exact (List.pairwise_cons.1 hsorted).1 b hb

/-- Over a normalized array and a non-decreasing stream below `INT32_MAX` the run
delivers a state per record; the flags are the brute-force membership and the cursor
positions start at `1`, never decrease and never exceed the array length. -/
theorem runFilter_of_normalized (pts ars : List Int) (hpts : Normalized pts)
    (hsorted : ars.Pairwise (fun a b => a ≤ b)) (hmax : ∀ ar ∈ ars, ar < INT32_MAX) :
    ∃ sts, runFilter pts ars = .ok sts ∧
      sts.map (fun s => s.inside) = ars.map (inSomeRange (rangesOf pts)) ∧
      (1 :: sts.map (fun s => s.idx)).Chain' (fun a b => a ≤ b) ∧
      ∀ s ∈ sts, s.idx ≤ pts.length ∧ s.idx - 1 ≤ 2 * (rangesOf pts).length := by
  obtain ⟨hshape, hgap⟩ := hpts
  generalize hrs : rangesOf pts = rs at hshape hgap
  subst hshape
  have hlen : (boundaries rs ++ [INT32_MAX]).length = 2 * rs.length + 1 := by
    simp [boundaries_length]
  cases ars with
  | nil =>
    obtain ⟨st, h0, -, -⟩ := initFilter_spec rs 0
    exact ⟨[], by simp [runFilter, h0, filterStream], rfl, by simp, by simp⟩
  | cons a ars =>
    obtain ⟨st, h0, hst, hidx⟩ := initFilter_spec rs a
    obtain ⟨sts, h1, hflags, hchain, hall⟩ :=
      filterStream_spec rs hgap (a :: ars) a st hst (pairwise_le_dup hsorted) hmax
    rw [hidx] at hchain
    refine ⟨sts, by simp only [runFilter, h0, h1], hflags, hchain, ?_⟩
    intro s hs
    have := hall s hs
    rw [hlen]
    omega

theorem selected_of_normalized (pts ars : List Int) (hpts : Normalized pts)
    (hsorted : ars.Pairwise (fun a b => a ≤ b)) (hmax : ∀ ar ∈ ars, ar < INT32_MAX) :
    selected pts ars = .ok (ars.map (inSomeRange (rangesOf pts))) := by
  obtain ⟨sts, h1, hflags, -, -⟩ := runFilter_of_normalized pts ars hpts hsorted hmax
  simp only [selected, h1, hflags]

/-! ## 32-bit reduction -/

theorem toInt32_of_range {v : Int} (h1 : INT32_MIN ≤ v) (h2 : v ≤ INT32_MAX) : toInt32 v = v := by
  unfold INT32_MIN at h1
  unfold INT32_MAX at h2
  unfold toInt32
  omega

theorem toInt32_range (v : Int) : INT32_MIN ≤ toInt32 v ∧ toInt32 v ≤ INT32_MAX := by
  unfold INT32_MIN INT32_MAX toInt32
  omega

/-! ## The merge loop computes `mergeRanges` -/

theorem foldl_mergeStep_open (rest : List (Int × Int)) :
    ∀ (cur : Int × Int) (acc : List Int),
      rest.foldl mergeStep (cur.2 :: cur.1 :: acc) =
        (boundaries (mergeFrom cur rest)).reverse ++ acc := by
  induction rest with
  | nil => intro cur acc; simp [mergeFrom, boundaries]
  | cons r rest ih =>
    intro cur acc
    simp only [List.foldl_cons, mergeStep, mergeFrom]
    by_cases h1 : cur.2 ≥ toInt32 (r.1 - 1)
    · rw [if_pos h1, if_pos h1]
      by_cases h2 : r.2 > cur.2
      · rw [if_pos h2, if_pos h2]
        exact ih (cur.1, r.2) acc
      · rw [if_neg h2, if_neg h2]
        exact ih (cur.1, cur.2) acc
    · rw [if_neg h1, if_neg h1]
      rw [ih r (cur.2 :: cur.1 :: acc)]
      simp [boundaries]

theorem mergePass_eq (sorted : List (Int × Int)) :
    mergePass sorted = boundaries (mergeRanges sorted) ++ [INT32_MAX] := by
  cases sorted with
  | nil => rfl
  | cons r rest =>
    have h : (r :: rest).foldl mergeStep [] = rest.foldl mergeStep (r.2 :: r.1 :: []) := by
      simp [List.foldl_cons, mergeStep]
    simp only [mergePass, mergeRanges, h, foldl_mergeStep_open]
    simp

theorem rangesOf_mergePass (sorted : List (Int × Int)) :
    rangesOf (mergePass sorted) = mergeRanges sorted := by
  rw [mergePass_eq, rangesOf_boundaries_sentinel]

/-- With ranges that are well formed and whose starts are not `INT32_MIN`, the merge
loop leaves gap-sorted ranges, the first of which starts where the open range does. -/
theorem mergeFrom_gapSorted (rest : List (Int × Int)) :
    ∀ cur : Int × Int, cur.1 ≤ cur.2 →
      (∀ r ∈ rest, r.1 ≤ r.2 ∧ INT32_MIN < r.1 ∧ r.1 ≤ INT32_MAX) →
      GapSorted (mergeFrom cur rest) ∧ ∃ e tl, mergeFrom cur rest = (cur.1, e) :: tl := by
  induction rest with
  | nil =>
    intro cur hcur _
    exact ⟨hcur, cur.2, [], rfl⟩
  | cons r rest ih =>
    intro cur hcur hall
    obtain ⟨hr, hmin, hmax⟩ := hall r (by simp)
    have hrest : ∀ q ∈ rest, q.1 ≤ q.2 ∧ INT32_MIN < q.1 ∧ q.1 ≤ INT32_MAX :=
      fun q hq => hall q (by simp [hq])
    have ht : toInt32 (r.1 - 1) = r.1 - 1 :=
      toInt32_of_range (by omega) (by omega)
    simp only [mergeFrom, ht]
    by_cases h1 : cur.2 ≥ r.1 - 1
    · rw [if_pos h1]
      have := ih (cur.1, if r.2 > cur.2 then r.2 else cur.2) (by simp only; split <;> omega) hrest
      exact this
    · rw [if_neg h1]
      obtain ⟨hg, e, tl, htl⟩ := ih r hr hrest
      rw [htl] at hg ⊢
      exact ⟨⟨hcur, by simp only; omega, hg⟩, cur.2, _, rfl⟩

theorem mergeRanges_gapSorted (sorted : List (Int × Int))
    (hall : ∀ r ∈ sorted, r.1 ≤ r.2 ∧ INT32_MIN < r.1 ∧ r.1 ≤ INT32_MAX) :
    GapSorted (mergeRanges sorted) := by
  cases sorted with
  | nil => trivial
  | cons r rest =>
    exact (mergeFrom_gapSorted rest r (hall r (by simp)).1 (fun q hq => hall q (by simp [hq]))).1

theorem GapSorted.starts_increase {rs : List (Int × Int)} (h : GapSorted rs) :
    rs.Pairwise (fun p q => p.1 < q.1) := by
  induction rs with
  | nil => exact List.Pairwise.nil
  | cons r rs ih =>
    refine List.pairwise_cons.2 ⟨?_, ih h.tail⟩
    intro q hq
    have := h.head_gap q hq
    have := h.head_le
    omega

/-! ## What the token loop accepts -/

theorem readStart_fst (n : Int) (tok : List Char) :
    (readStart n tok).1 = n ∨ (readStart n tok).1 = toInt32 (strtol tok).1 := by
  unfold readStart
  split
  · split
    · exact Or.inl rfl
    · exact Or.inr rfl
  · exact Or.inr rfl

/-- An accepted token contributes a range with a non-zero start that is not above
its end; the start is `db1->nreads` or a value reduced to 32 bits. -/
theorem parseToken_ok {n : Int} {tok : List Char} {r : Int × Int}
    (h : parseToken n tok = .ok r) :
    r.1 ≤ r.2 ∧ r.1 ≠ 0 ∧ (r.1 = n ∨ r.1 = toInt32 (strtol tok).1) := by
  unfold parseToken at h
  simp only at h
  split at h
  · split at h
    · exact absurd h (by simp)
    · rename_i hb
      split at h
      · injection h with h
        subst h
        exact ⟨le_refl _, hb, readStart_fst n tok⟩
      · split at h
        · split at h
          · split at h
            · exact absurd h (by simp)
            · rename_i hbe
              injection h with h
              subst h
              exact ⟨by simp only; omega, hb, readStart_fst n tok⟩
          · exact absurd h (by simp)
        · exact absurd h (by simp)
  · exact absurd h (by simp)

theorem parseArgs_ok (n : Int) :
    ∀ (tokens : List String) (parsed : List (Int × Int)), parseArgs n tokens = .ok parsed →
      parsed.length = tokens.length ∧
      ∀ r ∈ parsed, r.1 ≤ r.2 ∧ r.1 ≠ 0 ∧ (r.1 = n ∨ ∃ v, r.1 = toInt32 v) := by
  intro tokens
  induction tokens with
  | nil =>
    intro parsed h
    simp only [parseArgs] at h
    injection h with h
    subst h
    simp
  | cons t ts ih =>
    intro parsed h
    simp only [parseArgs] at h
    split at h
    · exact absurd h (by simp)
    · rename_i r hr
      split at h
      · exact absurd h (by simp)
      · rename_i rs hrs
        injection h with h
        subst h
        obtain ⟨hl, hall⟩ := ih rs hrs
        refine ⟨by simp [hl], ?_⟩
        intro q hq
        rcases List.mem_cons.1 hq with rfl | hq
        · obtain ⟨h1, h2, h3⟩ := parseToken_ok hr
          exact ⟨h1, h2, h3.imp id (fun h => ⟨_, h⟩)⟩
        · exact hall q hq

/-- With `db1->nreads` an `int`, every parsed start is an `int`. -/
theorem parseArgs_range {n : Int} (hn : INT32_MIN ≤ n ∧ n ≤ INT32_MAX) {tokens : List String}
    {parsed : List (Int × Int)} (h : parseArgs n tokens = .ok parsed) :
    ∀ r ∈ parsed, r.1 ≤ r.2 ∧ INT32_MIN ≤ r.1 ∧ r.1 ≤ INT32_MAX := by
  intro r hr
  obtain ⟨h1, -, h3⟩ := (parseArgs_ok n tokens parsed h).2 r hr
  refine ⟨h1, ?_⟩
  rcases h3 with h3 | ⟨v, h3⟩
  · rw [h3]; exact hn
  · rw [h3]; exact toInt32_range v

/-! ## `qsort` on ranges with distinct starts -/

theorem ORDER_le_iff {l r : Int × Int} (hl : 0 ≤ l.1 ∧ l.1 ≤ INT32_MAX)
    (hr : 0 ≤ r.1 ∧ r.1 ≤ INT32_MAX) : ORDER l r ≤ 0 ↔ l.1 ≤ r.1 := by
  unfold INT32_MAX at hl hr
  unfold ORDER toInt32
  omega

/-- Ranges with non-negative, strictly increasing starts are left as they are by
`qsort`, whatever its algorithm. -/
theorem qsort_unique {p q : List (Int × Int)} (hp : ∀ r ∈ p, 0 ≤ r.1 ∧ r.1 ≤ INT32_MAX)
    (hinc : p.Pairwise (fun a b => a.1 < b.1)) (hq : QsortResult p q) : q = p := by
  obtain ⟨hperm, hsorted⟩ := hq
  have hinj : ∀ a ∈ p, ∀ b ∈ p, a.1 = b.1 → a = b := by
    intro a ha b hb hab
    by_contra hne
    have hsym : Symmetric (fun (a b : Int × Int) => a.1 ≠ b.1) := fun _ _ h => Ne.symm h
    exact List.Pairwise.forall hsym (hinc.imp (fun h => ne_of_lt h)) ha hb hne hab
  haveI : IsAntisymm (Int × Int) (fun a b => a.1 < b.1 ∨ a = b) :=
    ⟨fun a b h1 h2 => by
      rcases h1 with h1 | h1
      · rcases h2 with h2 | h2
        · omega
        · exact h2.symm
      · exact h1⟩
  have hp1 : p.Pairwise (fun a b => a.1 < b.1 ∨ a = b) := hinc.imp (fun h => Or.inl h)
  have hq1 : q.Pairwise (fun a b => a.1 < b.1 ∨ a = b) := by
    refine hsorted.imp_of_mem ?_
    intro a b ha hb hab
    have ha1 := hperm.subset ha
    have hb1 := hperm.subset hb
    have hle := (ORDER_le_iff (hp a ha1) (hp b hb1)).1 hab
    by_cases h : a.1 < b.1
    · exact Or.inl h
    · exact Or.inr (hinj a ha1 b hb1 (by omega))
  exact List.eq_of_perm_of_sorted hperm hq1 hp1

/-! ## Re-merging -/

theorem mergeFrom_of_gapSorted (rest : List (Int × Int)) :
    ∀ cur : Int × Int, GapSorted (cur :: rest) →
      (∀ r ∈ rest, INT32_MIN < r.1 ∧ r.1 ≤ INT32_MAX) → mergeFrom cur rest = cur :: rest := by
  induction rest with
  | nil => intro cur _ _; rfl
  | cons r rest ih =>
    intro cur hg hall
    obtain ⟨hmin, hmax⟩ := hall r (by simp)
    have ht : toInt32 (r.1 - 1) = r.1 - 1 := toInt32_of_range (by omega) (by omega)
    have hgap : cur.2 + 1 < r.1 := hg.2.1
    simp only [mergeFrom, ht]
    rw [if_neg (by omega), ih r hg.2.2 (fun q hq => hall q (by simp [hq]))]

theorem mergeRanges_of_gapSorted {rs : List (Int × Int)} (hg : GapSorted rs)
    (hall : ∀ r ∈ rs, INT32_MIN < r.1 ∧ r.1 ≤ INT32_MAX) : mergeRanges rs = rs := by
  cases rs with
  | nil => rfl
  | cons r rest => exact mergeFrom_of_gapSorted rest r hg (fun q hq => hall q (by simp [hq]))

/-- Every range the merge loop leaves starts where one of its input ranges starts. -/
theorem mergeFrom_starts (P : Int → Prop) (rest : List (Int × Int)) :
    ∀ cur : Int × Int, P cur.1 → (∀ r ∈ rest, P r.1) → ∀ q ∈ mergeFrom cur rest, P q.1 := by
  induction rest with
  | nil =>
    intro cur hcur _ q hq
    simp only [mergeFrom, List.mem_singleton] at hq
    rw [hq]; exact hcur
  | cons r rest ih =>
    intro cur hcur hall q hq
    simp only [mergeFrom] at hq
    split at hq
    · exact ih (cur.1, if r.2 > cur.2 then r.2 else cur.2) hcur
        (fun x hx => hall x (by simp [hx])) q hq
    · rcases List.mem_cons.1 hq with rfl | hq
      · exact hcur
      · exact ih r (hall r (by simp)) (fun x hx => hall x (by simp [hx])) q hq

theorem mergeRanges_starts (P : Int → Prop) (sorted : List (Int × Int))
    (hall : ∀ r ∈ sorted, P r.1) : ∀ q ∈ mergeRanges sorted, P q.1 := by
  cases sorted with
  | nil => intro q hq; simp [mergeRanges] at hq
  | cons r rest =>
    exact mergeFrom_starts P rest r (hall r (by simp)) (fun x hx => hall x (by simp [hx]))

/-! ## `strtol` on plain text -/

theorem isdigit_not_special {c : Char} (h : isdigit c = true) :
    isspace c = false ∧ c ≠ '+' ∧ c ≠ '-' ∧ c ≠ '$' := by
  refine ⟨?_, ?_, ?_, ?_⟩
  · by_contra hs
    have hs1 : isspace c = true := by simpa using hs
    simp only [isspace, Bool.or_eq_true, beq_iff_eq] at hs1
    rcases hs1 with ((((h1 | h1) | h1) | h1) | h1) | h1 <;> subst h1 <;> exact absurd h (by decide)
  · rintro rfl; exact absurd h (by decide)
  · rintro rfl; exact absurd h (by decide)
  · rintro rfl; exact absurd h (by decide)

theorem scanDigits_snd (s : List Char) : ∀ acc, (scanDigits s acc).2 = s.dropWhile isdigit := by
  induction s with
  | nil => intro acc; rfl
  | cons c cs ih =>
    intro acc
    by_cases h : isdigit c = true
    · simp [scanDigits, h, ih]
    · simp [scanDigits, h]

theorem scanDigits_append (ds rest : List Char) (hds : ∀ c ∈ ds, isdigit c = true)
    (hrest : ∀ c, rest.head? = some c → isdigit c = false) :
    ∀ acc, scanDigits (ds ++ rest) acc =
      (ds.foldl (fun a c => a * 10 + digitVal c) acc, rest) := by
  induction ds with
  | nil =>
    intro acc
    cases rest with
    | nil => rfl
    | cons c cs =>
      have := hrest c rfl
      simp [scanDigits, this]
  | cons d ds ih =>
    intro acc
    have hd := hds d (by simp)
    simp only [List.cons_append, scanDigits, hd, if_true, List.foldl_cons]
    exact ih (fun c hc => hds c (by simp [hc])) _

theorem strtol_plain (c : Char) (r : List Char) (hsp : isspace c = false) (hplus : c ≠ '+')
    (hminus : c ≠ '-') :
    strtol (c :: r) =
      if isdigit c then
        (clampLong (scanDigits (c :: r) 0).1, (c :: r).dropWhile isdigit)
      else (0, c :: r) := by
  unfold strtol
  simp only [skipSpace, hsp]
  split
  · rename_i heq
    simp at heq
    exact absurd heq.1 hminus
  · rename_i heq
    simp at heq
    exact absurd heq.1 hplus
  · rename_i c1 r1 _ _ heq
    simp at heq
    obtain ⟨rfl, rfl⟩ := heq
    rw [scanDigits_snd]
  · rename_i heq
    simp at heq

theorem decimalValue_nonneg_aux (s : List Char) (hs : ∀ c ∈ s, isdigit c = true) :
    ∀ acc : Int, 0 ≤ acc → 0 ≤ s.foldl (fun a c => a * 10 + digitVal c) acc := by
  induction s with
  | nil => intro acc h; exact h
  | cons c cs ih =>
    intro acc h
    simp only [List.foldl_cons]
    apply ih (fun x hx => hs x (by simp [hx]))
    have hc := hs c (by simp)
    have : 0 ≤ digitVal c := by
      simp only [isdigit, Bool.and_eq_true, decide_eq_true_eq] at hc
      have h48 : (48 : Nat) ≤ c.toNat := by
        have := hc.1
        exact this
      unfold digitVal
      omega
    omega

theorem decimalValue_nonneg (s : List Char) (hs : ∀ c ∈ s, isdigit c = true) :
    0 ≤ decimalValue s :=
  decimalValue_nonneg_aux s hs 0 (le_refl 0)

theorem isDecimal_iff (s : List Char) :
    isDecimal s = true ↔ s ≠ [] ∧ ∀ c ∈ s, isdigit c = true := by
  cases s <;> simp [isDecimal]

theorem clampLong_of_int32 {v : Int} (h1 : INT32_MIN ≤ v) (h2 : v ≤ INT32_MAX) :
    clampLong v = v := by
  unfold INT32_MIN at h1
  unfold INT32_MAX at h2
  unfold clampLong LONG_MAX LONG_MIN
  rw [if_neg (by omega), if_neg (by omega)]

/-- On a decimal numeral followed by text that does not continue it, `strtol` converts the
numeral and stops right behind it. -/
theorem strtol_decimal (ds rest : List Char) (hds : isDecimal ds = true)
    (hrest : ∀ c, rest.head? = some c → isdigit c = false) :
    strtol (ds ++ rest) = (clampLong (decimalValue ds), rest) := by
  obtain ⟨hne, hall⟩ := (isDecimal_iff ds).1 hds
  cases ds with
  | nil => exact absurd rfl hne
  | cons d ds1 =>
    have hd := hall d (by simp)
    obtain ⟨h1, h2, h3, -⟩ := isdigit_not_special hd
    have hscan := scanDigits_append (d :: ds1) rest hall hrest 0
    rw [List.cons_append] at hscan ⊢
    rw [strtol_plain d (ds1 ++ rest) h1 h2 h3, if_pos hd, ← scanDigits_snd _ 0, hscan]
    rfl

/-! ## Reading the two endpoints of a token -/

theorem readStart_dollar (n : Int) (r : List Char) : readStart n ('$' :: r) = (n, r) := by
  simp [readStart, LAST_READ_SYMBOL]

theorem readStart_other (n : Int) (c : Char) (r : List Char) (h : c ≠ '$') :
    readStart n (c :: r) = (toInt32 (strtol (c :: r)).1, (strtol (c :: r)).2) := by
  simp [readStart, LAST_READ_SYMBOL, h]

theorem readEnd_dollar (r : List Char) : readEnd ('$' :: r) = (INT32_MAX, r) := by
  simp [readEnd, LAST_READ_SYMBOL]

theorem readEnd_other (c : Char) (r : List Char) (h : c ≠ '$') :
    readEnd (c :: r) = (toInt32 (strtol (c :: r)).1, (strtol (c :: r)).2) := by
  simp [readEnd, LAST_READ_SYMBOL, h]

theorem readStart_decimal (n : Int) (ds rest : List Char) (hds : isDecimal ds = true)
    (hrest : ∀ c, rest.head? = some c → isdigit c = false) :
    readStart n (ds ++ rest) = (toInt32 (clampLong (decimalValue ds)), rest) := by
  obtain ⟨hne, hall⟩ := (isDecimal_iff ds).1 hds
  have hs := strtol_decimal ds rest hds hrest
  cases ds with
  | nil => exact absurd rfl hne
  | cons d ds1 =>
    have hd := (isdigit_not_special (hall d (by simp))).2.2.2
    rw [List.cons_append] at hs ⊢
    rw [readStart_other n d _ hd, hs]

theorem readEnd_decimal (ds rest : List Char) (hds : isDecimal ds = true)
    (hrest : ∀ c, rest.head? = some c → isdigit c = false) :
    readEnd (ds ++ rest) = (toInt32 (clampLong (decimalValue ds)), rest) := by
  obtain ⟨hne, hall⟩ := (isDecimal_iff ds).1 hds
  have hs := strtol_decimal ds rest hds hrest
  cases ds with
  | nil => exact absurd rfl hne
  | cons d ds1 =>
    have hd := (isdigit_not_special (hall d (by simp))).2.2.2
    rw [List.cons_append] at hs ⊢
    rw [readEnd_other d _ hd, hs]

/-- A dashed token of two decimal numerals with `e < b ≤ INT32_MAX` ends the run with the
empty-range diagnostic. -/
theorem parseToken_empty_range (n : Int) (bs es : List Char) (hb : isDecimal bs = true)
    (he : isDecimal es = true) (hlt : decimalValue es < decimalValue bs)
    (hmax : decimalValue bs ≤ INT32_MAX) :
    parseToken n (bs ++ '-' :: es) = .error .EmptyRange := by
  obtain ⟨hbne, hball⟩ := (isDecimal_iff bs).1 hb
  obtain ⟨hene, heall⟩ := (isDecimal_iff es).1 he
  have he0 := decimalValue_nonneg es heall
  have hmin : INT32_MIN ≤ 0 := by decide
  have hvb : toInt32 (clampLong (decimalValue bs)) = decimalValue bs := by
    rw [clampLong_of_int32 (by omega) hmax, toInt32_of_range (by omega) hmax]
  have hve : toInt32 (clampLong (decimalValue es)) = decimalValue es := by
    rw [clampLong_of_int32 (by omega) (by omega), toInt32_of_range (by omega) (by omega)]
  have h1 : readStart n (bs ++ '-' :: es) = (decimalValue bs, '-' :: es) := by
    rw [readStart_decimal n bs ('-' :: es) hb (by
      intro c hc
      simp only [List.head?_cons, Option.some.injEq] at hc
      subst hc
      decide), hvb]
  have h2 : readEnd es = (decimalValue es, []) := by
    have := readEnd_decimal es [] he (by intro c hc; simp at hc)
    rw [List.append_nil] at this
    rw [this, hve]
  have hlen : ('-' :: es).length < (bs ++ '-' :: es).length := by
    have : 0 < bs.length := List.length_pos.2 hbne
    simp only [List.length_append, List.length_cons]
    omega
  have hhead : es.head? ≠ some '-' := by
    cases es with
    | nil => simp
    | cons d ds =>
      have := (isdigit_not_special (heall d (by simp))).2.2.1
      simpa using this
  have hepos : 0 < es.length := List.length_pos.2 hene
  unfold parseToken
  simp only [h1, h2]
  rw [if_pos hlen, if_neg (by omega)]
  simp only [if_true]
  rw [if_pos ⟨by simpa using hepos, trivial, hhead⟩, if_pos (by omega)]

/-! ## Tokens outside the grammar -/

theorem split_at_dash (bs es : List Char) (hbs : ∀ c ∈ bs, c ≠ '-') :
    (bs ++ '-' :: es).dropWhile (fun c => c != '-') = '-' :: es ∧
    (bs ++ '-' :: es).takeWhile (fun c => c != '-') = bs := by
  induction bs with
  | nil => simp
  | cons b bs ih =>
    have hb : (b != '-') = true := by simpa using hbs b (by simp)
    have := ih (fun c hc => hbs c (by simp [hc]))
    simp only [List.cons_append, List.dropWhile, List.takeWhile, hb]
    exact ⟨this.1, congrArg (List.cons b) this.2⟩

theorem isEndpoint_no_dash {bs : List Char} (h : isEndpoint bs = true) : ∀ c ∈ bs, c ≠ '-' := by
  simp only [isEndpoint, Bool.or_eq_true, beq_iff_eq] at h
  rcases h with h | h
  · intro c hc
    exact (isdigit_not_special (((isDecimal_iff bs).1 h).2 c hc)).2.2.1
  · subst h
    intro c hc
    simp only [LAST_READ_SYMBOL, List.mem_singleton] at hc
    subst hc
    decide

theorem wellFormedToken_of_endpoint {tok : List Char} (h : isEndpoint tok = true) :
    wellFormedToken tok = true := by
  simp [wellFormedToken, h]

theorem wellFormedToken_dashed {bs es : List Char} (hb : isEndpoint bs = true)
    (he : isEndpoint es = true) : wellFormedToken (bs ++ '-' :: es) = true := by
  obtain ⟨h1, h2⟩ := split_at_dash bs es (isEndpoint_no_dash hb)
  simp only [wellFormedToken, h1, h2, hb, he]
  simp

/-- When the start of a token is read, what was read is an endpoint of the grammar,
provided the token has no white space, no plus sign and no leading minus sign. -/
theorem readStart_consumed (n : Int) (tok : List Char)
    (hws : ∀ c ∈ tok, isspace c = false ∧ c ≠ '+') (hhead : tok.head? ≠ some '-')
    (hlen : (readStart n tok).2.length < tok.length) :
    ∃ bs, isEndpoint bs = true ∧ tok = bs ++ (readStart n tok).2 := by
  cases tok with
  | nil => simp at hlen
  | cons c r =>
    by_cases hc : c = '$'
    · subst hc
      rw [readStart_dollar]
      exact ⟨['$'], by decide, rfl⟩
    · obtain ⟨hsp, hplus⟩ := hws c (by simp)
      have hminus : c ≠ '-' := by simpa using hhead
      rw [readStart_other n c r hc, strtol_plain c r hsp hplus hminus] at hlen ⊢
      by_cases hd : isdigit c = true
      · rw [if_pos hd]
        refine ⟨(c :: r).takeWhile isdigit, ?_, (List.takeWhile_append_dropWhile _ _).symm⟩
        have h1 : isDecimal ((c :: r).takeWhile isdigit) = true := by
          rw [isDecimal_iff]
          refine ⟨by simp [List.takeWhile, hd], ?_⟩
          intro x hx
          exact (List.mem_takeWhile_imp hx)
        simp [isEndpoint, h1]
      · rw [if_neg hd] at hlen
        simp at hlen

/-- Text after the dash that is not an endpoint of the grammar is never accepted as
the end of a range, provided it has no white space and no plus sign. -/
theorem readEnd_rejects (afterDash : List Char)
    (hws : ∀ c ∈ afterDash, isspace c = false ∧ c ≠ '+')
    (hne : isEndpoint afterDash = false) :
    ¬ ((readEnd afterDash).2.length < afterDash.length ∧ (readEnd afterDash).2 = [] ∧
        afterDash.head? ≠ some '-') := by
  rintro ⟨h1, h2, h3⟩
  cases afterDash with
  | nil => simp at h1
  | cons d r =>
    by_cases hd : d = '$'
    · subst hd
      rw [readEnd_dollar] at h2
      simp only at h2
      subst h2
      exact absurd hne (by decide)
    · obtain ⟨hsp, hplus⟩ := hws d (by simp)
      have hminus : d ≠ '-' := by simpa using h3
      rw [readEnd_other d r hd, strtol_plain d r hsp hplus hminus] at h1 h2
      by_cases hdig : isdigit d = true
      · rw [if_pos hdig] at h2
        simp only at h2
        have hall : ∀ x ∈ d :: r, isdigit x = true := List.dropWhile_eq_nil_iff.1 h2
        have : isDecimal (d :: r) = true := (isDecimal_iff _).2 ⟨by simp, hall⟩
        simp [isEndpoint, this] at hne
      · rw [if_neg hdig] at h1
        simp at h1

/-- A token outside the grammar, without white space, plus sign or leading minus
sign, ends the run: with the zero-index diagnostic when a start was read and is zero,
with the invalid-token diagnostic otherwise. -/
theorem parseToken_outside_grammar (n : Int) (tok : List Char)
    (hwf : wellFormedToken tok = false)
    (hws : ∀ c ∈ tok, isspace c = false ∧ c ≠ '+') (hhead : tok.head? ≠ some '-') :
    parseToken n tok =
      .error (if (readStart n tok).2.length < tok.length ∧ (readStart n tok).1 = 0
        then .ZeroIndex else .InvalidRangeToken) := by
  unfold parseToken
  simp only
  by_cases hlen : (readStart n tok).2.length < tok.length
  · rw [if_pos hlen]
    by_cases hb : (readStart n tok).1 = 0
    · rw [if_pos hb, if_pos ⟨hlen, hb⟩]
    · rw [if_neg hb, if_neg (fun h => hb h.2)]
      obtain ⟨bs, hbs, htok⟩ := readStart_consumed n tok hws hhead hlen
      generalize (readStart n tok).2 = eptr at htok
      cases eptr with
      | nil =>
        rw [List.append_nil] at htok
        subst htok
        rw [wellFormedToken_of_endpoint hbs] at hwf
        exact absurd hwf (by simp)
      | cons c afterDash =>
        simp only
        by_cases hc : c = '-'
        · subst hc
          rw [if_pos rfl]
          have hend : isEndpoint afterDash = false := by
            by_contra he
            have he1 : isEndpoint afterDash = true := by simpa using he
            rw [htok, wellFormedToken_dashed hbs he1] at hwf
            exact absurd hwf (by simp)
          have hws1 : ∀ x ∈ afterDash, isspace x = false ∧ x ≠ '+' := by
            intro x hx
            exact hws x (by rw [htok]; simp [hx])
          rw [if_neg (readEnd_rejects afterDash hws1 hend)]
        · rw [if_neg hc]
  · rw [if_neg hlen, if_neg (fun h => hlen h.1)]

/-! ## A bad token ends the run -/

theorem parseArgs_error (n : Int) :
    ∀ (tokens : List String) (t : String) (err : ParseError), t ∈ tokens →
      parseToken n t.toList = .error err → ∃ e, parseArgs n tokens = .error e := by
  intro tokens
  induction tokens with
  | nil => intro t err ht; simp at ht
  | cons t0 ts ih =>
    intro t err ht herr
    simp only [parseArgs]
    cases h0 : parseToken n t0.toList with
    | error e => exact ⟨e, rfl⟩
    | ok r =>
      rcases List.mem_cons.1 ht with rfl | ht
      · rw [h0] at herr; exact absurd herr (by simp)
      · obtain ⟨e, he⟩ := ih t err ht herr
        simp only [he]
        exact ⟨e, rfl⟩

theorem rangeParser_error (n : Int) (tokens : List String) (t : String) (err : ParseError)
    (ht : t ∈ tokens) (herr : parseToken n t.toList = .error err) :
    (∃ e, rangeParser n tokens = .error e) ∧ ∀ pts, ¬ ParserYields n tokens pts := by
  obtain ⟨e, he⟩ := parseArgs_error n tokens t err ht herr
  cases tokens with
  | nil => simp at ht
  | cons t0 ts =>
    refine ⟨⟨e, by simp only [rangeParser, he]⟩, ?_⟩
    rintro pts ⟨parsed, sorted, hp, -, -⟩
    rw [he] at hp
    exact absurd hp (by simp)

/-! ## Default range and single index -/

theorem filterStream_default_inside :
    ∀ ars : List Int, (∀ ar ∈ ars, ar ≤ INT32_MAX) →
      filterStream [1, INT32_MAX] ⟨true, INT32_MAX, 2⟩ ars =
        .ok (ars.map (fun _ => ⟨true, INT32_MAX, 2⟩)) := by
  intro ars
  induction ars with
  | nil => intro _; rfl
  | cons a ars ih =>
    intro h
    have ha : ¬ a > INT32_MAX := by have := h a (by simp); omega
    have h1 : filterRecord [1, INT32_MAX] ⟨true, INT32_MAX, 2⟩ a = .ok ⟨true, INT32_MAX, 2⟩ := by
      simp [filterRecord, scanInside, ha]
    simp only [filterStream, h1, ih (fun x hx => h x (by simp [hx])), List.map_cons]

theorem selected_default (ars : List Int) (h : ∀ ar ∈ ars, 1 ≤ ar ∧ ar ≤ INT32_MAX) :
    selected [1, INT32_MAX] ars = .ok (ars.map (fun _ => true)) := by
  cases ars with
  | nil => rfl
  | cons a ars =>
    obtain ⟨ha1, ha2⟩ := h a (by simp)
    have h1 : filterRecord [1, INT32_MAX] ⟨false, 1, 1⟩ a = .ok ⟨true, INT32_MAX, 2⟩ := by
      simp [filterRecord, scanOutside, ha1, ha2]
    have h2 := filterStream_default_inside ars (fun x hx => (h x (by simp [hx])).2)
    simp [selected, runFilter, initFilter, filterStream, h1, h2]

theorem inSomeRange_single (ar : Int) : inSomeRange [(1, 1)] ar = decide (ar = 1) := by
  by_cases h : ar = 1
  · subst h; rfl
  · simp only [inSomeRange, List.any_cons, List.any_nil, Bool.or_false, h, decide_False]
    by_cases h1 : 1 ≤ ar
    · have : ¬ ar ≤ 1 := by omega
      simp [this]
    · simp [h1]

theorem selected_single (ars : List Int) (hsorted : ars.Pairwise (fun a b => a ≤ b))
    (h : ∀ ar ∈ ars, ar < INT32_MAX) :
    selected [1, 1, INT32_MAX] ars = .ok (ars.map (fun ar => decide (ar = 1))) := by
  rw [selected_of_normalized [1, 1, INT32_MAX] ars (by decide) hsorted h]
  have : rangesOf [1, 1, INT32_MAX] = [(1, 1)] := rfl
  rw [this]
  congr 1
  exact List.map_congr_left (fun a _ => inSomeRange_single a)

/-! ## Single records -/

theorem subjectCoords_eq (o : OverlapRecord) :
    subjectCoords o =
      if o.comp then (o.blen - o.bepos, o.blen - o.bbpos) else (o.bbpos, o.bepos) := by
  unfold subjectCoords reflect
  rfl

/-! ## Trace buffer growth -/

theorem CAST_1_2_eq : CAST_1_2 = 1 := by decide

/-- While `tlen + 100` is an `int`, the growth step sets the capacity to `tlen + 100`. -/
theorem growTmax_eq {tmax tlen : Int} (h0 : INT32_MIN ≤ tlen) (h1 : tlen ≤ INT32_MAX - 100) :
    growTmax tmax tlen = if tlen > tmax then tlen + 100 else tmax := by
  unfold INT32_MIN at h0
  unfold INT32_MAX at h1
  unfold growTmax
  rw [CAST_1_2_eq]
  unfold toInt32
  split
  · omega
  · rfl

theorem capacities_neverShrinks (tlens : List Int) :
    ∀ tmax : Int, (∀ t ∈ tlens, 0 ≤ t ∧ t ≤ INT32_MAX - 100) →
      NeverShrinks tmax tlens (capacities tmax tlens) := by
  induction tlens with
  | nil => intro _ _; trivial
  | cons t ts ih =>
    intro tmax h
    obtain ⟨h0, h1⟩ := h t (by simp)
    have hmin : INT32_MIN ≤ t := by unfold INT32_MIN; omega
    have hg : growTmax tmax t = if t > tmax then t + 100 else tmax := growTmax_eq hmin h1
    refine ⟨?_, ?_, ih _ (fun x hx => h x (by simp [hx]))⟩
    · rw [hg]; split <;> omega
    · rw [hg]; split <;> omega

/-! ## Display windows -/

theorem clipLow_eq {pos BORDER : Int} (h1 : INT32_MIN ≤ pos - BORDER)
    (h2 : pos - BORDER ≤ INT32_MAX) : clipLow pos BORDER = max 0 (pos - BORDER) := by
  unfold clipLow
  rw [toInt32_of_range h1 h2]
  split <;> omega

theorem clipHigh_eq {pos BORDER len : Int} (h1 : INT32_MIN ≤ pos + BORDER)
    (h2 : pos + BORDER ≤ INT32_MAX) : clipHigh pos BORDER len = min len (pos + BORDER) := by
  unfold clipHigh
  rw [toInt32_of_range h1 h2]
  split <;> omega

/-! ## Divisions by the trace spacing -/

theorem cdiv_ok {a b : Int} (hb : b ≠ 0) : cdiv a b = .ok (Int.tdiv a b) := by
  unfold cdiv
  rw [if_neg hb]

theorem tpWideArg_no_division_by_zero (maxlen1 maxlen2 tspace : Int) (h : 0 < tspace) :
    tpWideArg maxlen1 maxlen2 tspace ≠ .error .DivisionByZero := by
  have hb : tspace ≠ 0 := by omega
  simp only [tpWideArg, cdiv_ok hb]
  by_cases hm : maxlen1 < maxlen2
  · rw [if_pos hm]; simp
  · rw [if_neg hm]; simp

theorem tracePoints_ok (o : OverlapRecord) (tspace : Int) (h : 0 < tspace) :
    tracePoints o tspace =
      .ok (Int.tdiv (o.aepos - 1) tspace - Int.tdiv o.abpos tspace) := by
  have hb : tspace ≠ 0 := by omega
  simp only [tracePoints, cdiv_ok hb]

theorem recordLoop_no_division_by_zero (pts : List Int) (ICE_FL : Bool) (tspace : Int)
    (h : 0 < tspace) :
    ∀ (records : List (Int × OverlapRecord)) (st : FilterState),
      recordLoop pts ICE_FL tspace st records ≠ .error .DivisionByZero := by
  intro records
  induction records with
  | nil => intro st; simp [recordLoop]
  | cons rec rest ih =>
    intro st
    simp only [recordLoop, tracePoints_ok _ _ h]
    cases hf : filterRecord pts st rec.1 with
    | error f => simp
    | ok st1 =>
      simp only
      have := ih st1
      split
      · cases hr : recordLoop pts ICE_FL tspace st1 rest with
        | error e =>
          simp only
          intro he
          injection he with he
          rw [hr, he] at this
          exact this rfl
        | ok outs => simp
      · cases hr : recordLoop pts ICE_FL tspace st1 rest with
        | error e =>
          simp only
          intro he
          injection he with he
          rw [hr, he] at this
          exact this rfl
        | ok outs => simp

/-! ## Coverage of a list of ranges -/

theorem inSomeRange_iff (rs : List (Int × Int)) (i : Int) :
    inSomeRange rs i = true ↔ ∃ r ∈ rs, r.1 ≤ i ∧ i ≤ r.2 := by
  unfold inSomeRange
  rw [List.any_eq_true]
  constructor
  · rintro ⟨r, hr, h⟩
    simp only [Bool.and_eq_true, decide_eq_true_eq] at h
    exact ⟨r, hr, h⟩
  · rintro ⟨r, hr, h⟩
    exact ⟨r, hr, by simp [h.1, h.2]⟩

theorem inSomeRange_cons (r : Int × Int) (rs : List (Int × Int)) (i : Int) :
    inSomeRange (r :: rs) i = true ↔ (r.1 ≤ i ∧ i ≤ r.2) ∨ inSomeRange rs i = true := by
  simp only [inSomeRange_iff, List.mem_cons]
  constructor
  · rintro ⟨q, hq | hq, h⟩
    · subst hq; exact Or.inl h
    · exact Or.inr ⟨q, hq, h⟩
  · rintro (h | ⟨q, hq, h⟩)
    · exact ⟨r, Or.inl rfl, h⟩
    · exact ⟨q, Or.inr hq, h⟩

theorem inSomeRange_perm {rs rs1 : List (Int × Int)} (h : rs.Perm rs1) (i : Int) :
    inSomeRange rs i = inSomeRange rs1 i := by
  rw [Bool.eq_iff_iff, inSomeRange_iff, inSomeRange_iff]
  constructor
  · rintro ⟨r, hr, hi⟩; exact ⟨r, h.subset hr, hi⟩
  · rintro ⟨r, hr, hi⟩; exact ⟨r, h.symm.subset hr, hi⟩

/-- The merge loop keeps the covered indices, when the ranges come sorted by start. -/
theorem mergeFrom_cover (i : Int) (rest : List (Int × Int)) :
    ∀ cur : Int × Int, cur.1 ≤ cur.2 →
      (cur :: rest).Pairwise (fun a b => a.1 ≤ b.1) →
      (∀ r ∈ rest, r.1 ≤ r.2 ∧ INT32_MIN < r.1 ∧ r.1 ≤ INT32_MAX) →
      (inSomeRange (mergeFrom cur rest) i = true ↔ inSomeRange (cur :: rest) i = true) := by
  induction rest with
  | nil => intro cur _ _ _; rfl
  | cons r rest ih =>
    intro cur hcur hsorted hall
    obtain ⟨hr, hmin, hmax⟩ := hall r (by simp)
    have hrest : ∀ q ∈ rest, q.1 ≤ q.2 ∧ INT32_MIN < q.1 ∧ q.1 ≤ INT32_MAX :=
      fun q hq => hall q (by simp [hq])
    have ht : toInt32 (r.1 - 1) = r.1 - 1 := toInt32_of_range (by omega) (by omega)
    obtain ⟨hhead, htail⟩ := List.pairwise_cons.1 hsorted
    have hcr : cur.1 ≤ r.1 := hhead r (by simp)
    simp only [mergeFrom, ht]
    by_cases h1 : cur.2 ≥ r.1 - 1
    · rw [if_pos h1]
      have hs1 : ((cur.1, if r.2 > cur.2 then r.2 else cur.2) :: rest).Pairwise
          (fun a b => a.1 ≤ b.1) := by
        refine List.pairwise_cons.2 ⟨?_, (List.pairwise_cons.1 htail).2⟩
        intro q hq
        exact hhead q (by simp [hq])
      rw [ih (cur.1, if r.2 > cur.2 then r.2 else cur.2) (by simp only; split <;> omega)
        hs1 hrest]
      rw [inSomeRange_cons, inSomeRange_cons, inSomeRange_cons]
      simp only
      constructor
      · rintro (h | h)
        · by_cases h2 : i ≤ cur.2
          · exact Or.inl ⟨h.1, h2⟩
          · right; left
            split at h <;> omega
        · exact Or.inr (Or.inr h)
      · rintro (h | h | h)
        · left
          split <;> omega
        · left
          split <;> omega
        · exact Or.inr h
    · rw [if_neg h1, inSomeRange_cons, ih r hr htail hrest, inSomeRange_cons (r := cur)]

theorem mergeRanges_cover (i : Int) (sorted : List (Int × Int))
    (hsorted : sorted.Pairwise (fun a b => a.1 ≤ b.1))
    (hall : ∀ r ∈ sorted, r.1 ≤ r.2 ∧ INT32_MIN < r.1 ∧ r.1 ≤ INT32_MAX) :
    inSomeRange (mergeRanges sorted) i = inSomeRange sorted i := by
  cases sorted with
  | nil => rfl
  | cons r rest =>
    rw [Bool.eq_iff_iff]
    exact mergeFrom_cover i rest r (hall r (by simp)).1 hsorted
      (fun q hq => hall q (by simp [hq]))

/-- A result of `qsort` on ranges with starts in `[0, INT32_MAX]` is sorted by start. -/
theorem qsort_sorted {p q : List (Int × Int)} (hp : ∀ r ∈ p, 0 ≤ r.1 ∧ r.1 ≤ INT32_MAX)
    (hq : QsortResult p q) : q.Pairwise (fun a b => a.1 ≤ b.1) := by
  refine hq.2.imp_of_mem ?_
  intro a b ha hb hab
  exact (ORDER_le_iff (hp a (hq.1.subset ha)) (hp b (hq.1.subset hb))).1 hab

/-- Two gap-sorted lists of ranges that cover the same indices are the same list. -/
theorem gapSorted_unique :
    ∀ rs rs1 : List (Int × Int), GapSorted rs → GapSorted rs1 →
      (∀ i, inSomeRange rs i = inSomeRange rs1 i) → rs = rs1 := by
  intro rs
  induction rs with
  | nil =>
    intro rs1 _ h1 hcov
    cases rs1 with
    | nil => rfl
    | cons r1 t1 =>
      have := hcov r1.1
      rw [show inSomeRange [] r1.1 = false from rfl] at this
      have h2 : inSomeRange (r1 :: t1) r1.1 = true :=
        (inSomeRange_cons r1 t1 r1.1).2 (Or.inl ⟨le_refl _, h1.head_le⟩)
      rw [h2] at this
      exact absurd this (by simp)
  | cons r t ih =>
    intro rs1 h h1 hcov
    cases rs1 with
    | nil =>
      have := hcov r.1
      rw [show inSomeRange [] r.1 = false from rfl] at this
      have h2 : inSomeRange (r :: t) r.1 = true :=
        (inSomeRange_cons r t r.1).2 (Or.inl ⟨le_refl _, h.head_le⟩)
      rw [h2] at this
      exact absurd this (by simp)
    | cons r1 t1 =>
      have hv := h.head_le
      have hv1 := h1.head_le
      have hgap := h.head_gap
      have hgap1 := h1.head_gap
      have ht : ∀ i, i ≤ r.2 + 1 → inSomeRange t i = false := by
        intro i hi
        apply inSomeRange_eq_false
        intro q hq
        have := hgap q hq
        left; omega
      have ht1 : ∀ i, i ≤ r1.2 + 1 → inSomeRange t1 i = false := by
        intro i hi
        apply inSomeRange_eq_false
        intro q hq
        have := hgap1 q hq
        left; omega
      have hin : ∀ i, ((r.1 ≤ i ∧ i ≤ r.2) ∨ inSomeRange t i = true) ↔
          ((r1.1 ≤ i ∧ i ≤ r1.2) ∨ inSomeRange t1 i = true) := by
        intro i
        rw [← inSomeRange_cons, ← inSomeRange_cons, hcov i]
      have hstart : r.1 = r1.1 := by
        have a1 := (hin r.1).1 (Or.inl ⟨le_refl _, hv⟩)
        have a2 := (hin r1.1).2 (Or.inl ⟨le_refl _, hv1⟩)
        have b1 : r1.1 ≤ r.1 := by
          rcases a1 with a1 | a1
          · exact a1.1
          · by_contra hlt
            rw [ht1 r.1 (by omega)] at a1
            exact absurd a1 (by simp)
        have b2 : r.1 ≤ r1.1 := by
          rcases a2 with a2 | a2
          · exact a2.1
          · by_contra hlt
            rw [ht r1.1 (by omega)] at a2
            exact absurd a2 (by simp)
        omega
      have hend : r.2 = r1.2 := by
        by_contra hne
        rcases lt_or_gt_of_ne hne with hlt | hgt
        · have a := (hin (r.2 + 1)).2 (Or.inl ⟨by omega, by omega⟩)
          rcases a with a | a
          · omega
          · rw [ht (r.2 + 1) (le_refl _)] at a
            exact absurd a (by simp)
        · have a := (hin (r1.2 + 1)).1 (Or.inl ⟨by omega, by omega⟩)
          rcases a with a | a
          · omega
          · rw [ht1 (r1.2 + 1) (le_refl _)] at a
            exact absurd a (by simp)
      have hr : r = r1 := Prod.ext hstart hend
      subst hr
      have htail : ∀ i, inSomeRange t i = inSomeRange t1 i := by
        intro i
        by_cases hi : i ≤ r.2 + 1
        · rw [ht i hi, ht1 i hi]
        · rw [Bool.eq_iff_iff]
          have := hin i
          constructor
          · intro a
            rcases this.1 (Or.inr a) with b | b
            · omega
            · exact b
          · intro a
            rcases this.2 (Or.inr a) with b | b
            · omega
            · exact b
      rw [ih t1 h.tail h1.tail htail]

/-! ## Tokens in another order -/

theorem parseArgs_filterMap (n : Int) :
    ∀ (tokens : List String) (parsed : List (Int × Int)), parseArgs n tokens = .ok parsed →
      parsed = tokens.filterMap (acceptedRange n) := by
  intro tokens
  induction tokens with
  | nil =>
    intro parsed h
    simp only [parseArgs] at h
    injection h with h
    subst h
    rfl
  | cons t ts ih =>
    intro parsed h
    simp only [parseArgs] at h
    split at h
    · exact absurd h (by simp)
    · rename_i r hr
      split at h
      · exact absurd h (by simp)
      · rename_i rs hrs
        injection h with h
        subst h
        have : acceptedRange n t = some r := by simp only [acceptedRange, hr]
        rw [List.filterMap_cons, this, ← ih rs hrs]

theorem parseArgs_perm {n : Int} {tokens tokens1 : List String}
    {parsed parsed1 : List (Int × Int)} (hperm : tokens.Perm tokens1)
    (h : parseArgs n tokens = .ok parsed) (h1 : parseArgs n tokens1 = .ok parsed1) :
    parsed.Perm parsed1 := by
  rw [parseArgs_filterMap n tokens parsed h, parseArgs_filterMap n tokens1 parsed1 h1]
  exact hperm.filterMap _

/-- Sorted and merged, two rearrangements of the same valid ranges give the same
array. -/
theorem mergePass_perm_invariant {p p1 s s1 : List (Int × Int)} (hperm : p.Perm p1)
    (hvalid : ∀ r ∈ p, 1 ≤ r.1 ∧ r.1 ≤ r.2 ∧ r.1 ≤ INT32_MAX)
    (hs : QsortResult p s) (hs1 : QsortResult p1 s1) : mergePass s = mergePass s1 := by
  have hv1 : ∀ r ∈ p1, 1 ≤ r.1 ∧ r.1 ≤ r.2 ∧ r.1 ≤ INT32_MAX :=
    fun r hr => hvalid r (hperm.symm.subset hr)
  have hmin : INT32_MIN < 1 := by decide
  have hall : ∀ r ∈ s, r.1 ≤ r.2 ∧ INT32_MIN < r.1 ∧ r.1 ≤ INT32_MAX := by
    intro r hr
    have := hvalid r (hs.1.subset hr)
    exact ⟨this.2.1, by omega, this.2.2⟩
  have hall1 : ∀ r ∈ s1, r.1 ≤ r.2 ∧ INT32_MIN < r.1 ∧ r.1 ≤ INT32_MAX := by
    intro r hr
    have := hv1 r (hs1.1.subset hr)
    exact ⟨this.2.1, by omega, this.2.2⟩
  have hsorted := qsort_sorted (fun r hr => ⟨by have := (hvalid r hr).1; omega,
    (hvalid r hr).2.2⟩) hs
  have hsorted1 := qsort_sorted (fun r hr => ⟨by have := (hv1 r hr).1; omega,
    (hv1 r hr).2.2⟩) hs1
  have hcov : ∀ i, inSomeRange (mergeRanges s) i = inSomeRange (mergeRanges s1) i := by
    intro i
    rw [mergeRanges_cover i s hsorted hall, mergeRanges_cover i s1 hsorted1 hall1]
    exact inSomeRange_perm (hs.1.trans (hperm.trans hs1.1.symm)) i
  rw [mergePass_eq, mergePass_eq,
    gapSorted_unique _ _ (mergeRanges_gapSorted s hall) (mergeRanges_gapSorted s1 hall1) hcov]

/-! ## The claims -/

/-- C1: for every normalized boundary array `pts` (gap-sorted ranges followed by the
`INT32_MAX` sentinel) and every non-decreasing stream of primary indices
`1 ≤ ar < INT32_MAX`, the filter started from `in = 0, npt = pts[0], idx = 1` runs without
fault and selects a record exactly when `ar` lies in one of the ranges, both ends
inclusive: its flags are those of the brute-force membership check, record by record. -/
theorem filter_agrees_with_brute_force (pts ars : List Int) (hpts : Normalized pts)
    (hsorted : ars.Pairwise (fun a b => a ≤ b))
    (hrange : ∀ ar ∈ ars, 1 ≤ ar ∧ ar < INT32_MAX) :
    selected pts ars = .ok (ars.map (inSomeRange (rangesOf pts))) :=
  selected_of_normalized pts ars hpts hsorted (fun ar h => (hrange ar h).2)

theorem filter_agrees_with_brute_force_witness :
    Normalized [10, 25, 30, 30, INT32_MAX] ∧
    [1, 10, 10, 26, 30, 31].Pairwise (fun (a b : Int) => a ≤ b) ∧
    (∀ ar ∈ [1, 10, 10, 26, 30, 31], (1 : Int) ≤ ar ∧ ar < INT32_MAX) ∧
    selected [10, 25, 30, 30, INT32_MAX] [1, 10, 10, 26, 30, 31] =
      .ok [false, true, true, false, true, false] :=
  ⟨by decide, by decide, by decide,
   filter_agrees_with_brute_force [10, 25, 30, 30, INT32_MAX] [1, 10, 10, 26, 30, 31]
     (by decide) (by decide) (by decide)⟩

/-- C2 (as amended): for every list of range tokens that parses successfully (the empty
list included) and in which no range start is `INT32_MIN`, and for every order `sorted`
in which `qsort` may leave the parsed ranges, the finalized boundary array holds ranges
with `start ≤ end`, each starting more than one past the end of the one before it, hence
sorted ascending by start, and its last boundary is `INT32_MAX`; with at least one token
the array is the ranges followed by the `INT32_MAX` sentinel. -/
theorem parser_output_normalized (nreads : Int) (tokens : List String)
    (parsed sorted : List (Int × Int)) (pts : List Int)
    (hn : INT32_MIN ≤ nreads ∧ nreads ≤ INT32_MAX)
    (hparse : parseArgs nreads tokens = .ok parsed)
    (hsort : sorted.Perm parsed)
    (hpts : pts = if tokens = [] then [1, INT32_MAX] else mergePass sorted)
    (hmin : ∀ r ∈ parsed, r.1 ≠ INT32_MIN) :
    GapSorted (rangesOf pts) ∧ (rangesOf pts).Pairwise (fun p q => p.1 < q.1) ∧
      pts.getLast? = some INT32_MAX ∧ (tokens ≠ [] → Normalized pts) := by
  by_cases htok : tokens = []
  · rw [if_pos htok] at hpts
    subst hpts
    exact ⟨by decide, by decide, by decide, fun h => absurd htok h⟩
  · rw [if_neg htok] at hpts
    subst hpts
    have hall : ∀ r ∈ sorted, r.1 ≤ r.2 ∧ INT32_MIN < r.1 ∧ r.1 ≤ INT32_MAX := by
      intro r hr
      have hr1 := hsort.subset hr
      obtain ⟨h1, h2, h3⟩ := parseArgs_range hn hparse r hr1
      exact ⟨h1, lt_of_le_of_ne h2 (Ne.symm (hmin r hr1)), h3⟩
    have hg := mergeRanges_gapSorted sorted hall
    rw [rangesOf_mergePass]
    refine ⟨hg, hg.starts_increase, ?_, fun _ => ⟨?_, ?_⟩⟩
    · rw [mergePass_eq]; simp
    · rw [rangesOf_mergePass, ← mergePass_eq]
    · rw [rangesOf_mergePass]; exact hg

theorem parser_output_normalized_witness :
    (INT32_MIN ≤ (100 : Int) ∧ (100 : Int) ≤ INT32_MAX) ∧
    parseArgs 100 ["15-25", "30", "10-20"] = .ok [(15, 25), (30, 30), (10, 20)] ∧
    [((10 : Int), (20 : Int)), (15, 25), (30, 30)].Perm [(15, 25), (30, 30), (10, 20)] ∧
    (∀ r ∈ [((15 : Int), (25 : Int)), (30, 30), (10, 20)], r.1 ≠ INT32_MIN) ∧
    GapSorted (rangesOf [10, 25, 30, 30, INT32_MAX]) ∧
    (rangesOf [10, 25, 30, 30, INT32_MAX]).Pairwise (fun p q => p.1 < q.1) ∧
    [10, 25, 30, 30, INT32_MAX].getLast? = some INT32_MAX ∧
    (["15-25", "30", "10-20"] ≠ [] → Normalized [10, 25, 30, 30, INT32_MAX]) :=
  have hp : [((10 : Int), (20 : Int)), (15, 25), (30, 30)].Perm
      [(15, 25), (30, 30), (10, 20)] := by decide
  ⟨by decide, rfl, hp, by decide,
   parser_output_normalized 100 ["15-25", "30", "10-20"] [(15, 25), (30, 30), (10, 20)]
     [(10, 20), (15, 25), (30, 30)] [10, 25, 30, 30, INT32_MAX] (by decide) rfl hp rfl
     (by decide)⟩

/-- C2, the claim as stated fails: the tokens `2147483648`, `2147483648` parse
successfully, each start wraps to `INT32_MIN`, the test `pts[b-1] >= pts[c]-1` of the
merge loop compares with `INT32_MAX`, and the finalized array holds the range
`[INT32_MIN, INT32_MIN]` twice: consecutive ranges that are not disjoint. -/
theorem parser_output_not_disjoint :
    parseArgs 100 ["2147483648", "2147483648"] =
      .ok [(INT32_MIN, INT32_MIN), (INT32_MIN, INT32_MIN)] ∧
    rangeParser 100 ["2147483648", "2147483648"] =
      .ok [INT32_MIN, INT32_MIN, INT32_MIN, INT32_MIN, INT32_MAX] ∧
    (∀ pts, ParserYields 100 ["2147483648", "2147483648"] pts →
      pts = [INT32_MIN, INT32_MIN, INT32_MIN, INT32_MIN, INT32_MAX]) ∧
    ¬ GapSorted (rangesOf [INT32_MIN, INT32_MIN, INT32_MIN, INT32_MIN, INT32_MAX]) ∧
    ¬ (rangesOf [INT32_MIN, INT32_MIN, INT32_MIN, INT32_MIN, INT32_MAX]).Pairwise
        (fun p q => p.1 < q.1) := by
  refine ⟨rfl, rfl, ?_, by decide, by decide⟩
  rintro pts ⟨parsed, sorted, hp, ⟨hperm, -⟩, rfl⟩
  have hp0 : parseArgs 100 ["2147483648", "2147483648"] =
      .ok (List.replicate 2 (INT32_MIN, INT32_MIN)) := rfl
  rw [hp0] at hp
  injection hp with hp
  subst hp
  rw [List.perm_replicate] at hperm
  subst hperm
  rfl

/-- C3: parsing and normalizing the tokens `10-20`, `15-25`, `30` yields exactly the
boundary array `10, 25, 30, 30, INT32_MAX`, that is the ranges `[10,25]`, `[30,30]`
followed by the `INT32_MAX` sentinel, for every collection size and every behaviour of
`qsort`. -/
theorem parser_example_merge (nreads : Int) :
    rangeParser nreads ["10-20", "15-25", "30"] = .ok [10, 25, 30, 30, INT32_MAX] ∧
    rangesOf [10, 25, 30, 30, INT32_MAX] = [(10, 25), (30, 30)] ∧
    ∀ pts, ParserYields nreads ["10-20", "15-25", "30"] pts ↔
      pts = [10, 25, 30, 30, INT32_MAX] := by
  have hp0 : parseArgs nreads ["10-20", "15-25", "30"] = .ok [(10, 20), (15, 25), (30, 30)] := rfl
  refine ⟨rfl, rfl, fun pts => ⟨?_, ?_⟩⟩
  · rintro ⟨parsed, sorted, hp, hq, rfl⟩
    rw [hp0] at hp
    injection hp with hp
    subst hp
    rw [qsort_unique (by decide) (by decide) hq]
    rfl
  · rintro rfl
    exact ⟨_, [(10, 20), (15, 25), (30, 30)], hp0, ⟨List.Perm.refl _, by decide⟩, rfl⟩

/-- C4 (as amended): the token `0` fails with ZeroIndex; every dashed token `b-e` of two
decimal numerals with `e < b ≤ INT32_MAX` (such as `20-10`) fails with EmptyRange; and
every token that is neither a decimal index, nor `$`, nor a well-formed `b-e` form, and
has no white space, no plus sign and no leading minus sign, fails: with ZeroIndex when a
start is read at its front and is zero, with InvalidRangeToken otherwise (as `abc`, `5-`,
`5-6-7`, `5x` do).  A token list with a failing token produces no range list. -/
theorem range_token_errors (nreads : Int) :
    parseToken nreads "0".toList = .error .ZeroIndex ∧
    parseToken nreads "20-10".toList = .error .EmptyRange ∧
    (∀ bs es : List Char, isDecimal bs = true → isDecimal es = true →
      decimalValue es < decimalValue bs → decimalValue bs ≤ INT32_MAX →
      parseToken nreads (bs ++ '-' :: es) = .error .EmptyRange) ∧
    (∀ t ∈ ["abc", "5-", "5-6-7", "5x"],
      wellFormedToken (String.toList t) = false ∧
      parseToken nreads (String.toList t) = .error .InvalidRangeToken) ∧
    (∀ tok : List Char, wellFormedToken tok = false →
      (∀ c ∈ tok, isspace c = false ∧ c ≠ '+') → tok.head? ≠ some '-' →
      parseToken nreads tok =
        .error (if (readStart nreads tok).2.length < tok.length ∧ (readStart nreads tok).1 = 0
          then .ZeroIndex else .InvalidRangeToken)) ∧
    (∀ (tokens : List String) (t : String) (err : ParseError), t ∈ tokens →
      parseToken nreads (String.toList t) = .error err →
      (∃ e, rangeParser nreads tokens = .error e) ∧
        ∀ pts, ¬ ParserYields nreads tokens pts) := by
  refine ⟨rfl, rfl, parseToken_empty_range nreads, ?_, parseToken_outside_grammar nreads,
    rangeParser_error nreads⟩
  intro t ht
  simp only [List.mem_cons, List.mem_singleton, List.mem_nil_iff, or_false] at ht
  rcases ht with rfl | rfl | rfl | rfl <;> exact ⟨by decide, rfl⟩

theorem range_token_errors_witness :
    parseToken 100 "2147483647-2147483646".toList = .error .EmptyRange ∧
    parseToken 100 "5-x".toList = .error .InvalidRangeToken ∧
    ((∃ e, rangeParser 100 ["3", "5x", "7"] = .error e) ∧
      ∀ pts, ¬ ParserYields 100 ["3", "5x", "7"] pts) :=
  ⟨(range_token_errors 100).2.2.1 "2147483647".toList "2147483646".toList
      (by decide) (by decide) (by decide) (by decide),
   (range_token_errors 100).2.2.2.2.1 "5-x".toList (by decide) (by decide) (by decide),
   (range_token_errors 100).2.2.2.2.2 ["3", "5x", "7"] "5x" .InvalidRangeToken
      (by decide) rfl⟩

/-- C4, the claim as stated fails: the token `0x` is neither a decimal index, nor `$`,
nor a well-formed `b-e` form, and it fails with ZeroIndex, not with InvalidRangeToken,
since the start is tested for zero before the rest of the token is looked at; and the
dashed token `4294967297-1` of two decimal numerals with `b > e`, `b ≠ 0` does not fail
at all: its start is narrowed to the `int` `1` and the range `[1,1]` is accepted. -/
theorem range_token_errors_differ :
    wellFormedToken "0x".toList = false ∧
    parseToken 100 "0x".toList = .error .ZeroIndex ∧
    parseToken 100 "0x".toList ≠ .error .InvalidRangeToken ∧
    isDecimal "4294967297".toList = true ∧ isDecimal "1".toList = true ∧
    decimalValue "1".toList < decimalValue "4294967297".toList ∧
    decimalValue "4294967297".toList ≠ 0 ∧
    parseToken 100 ("4294967297".toList ++ '-' :: "1".toList) = .ok (1, 1) ∧
    rangeParser 100 ["4294967297-1"] = .ok [1, 1, INT32_MAX] := by
  refine ⟨by decide, rfl, by decide, by decide, by decide, by decide, by decide, rfl, rfl⟩

/-- C5 (as amended): with no range token the parser produces the single range
`[1, INT32_MAX]` and the filter selects every record of every stream of primary indices
`ar ≥ 1` (an `int`, so `ar ≤ INT32_MAX`); with the single token `1` the array is
`1, 1, INT32_MAX` and, on every non-decreasing stream of primary indices below
`INT32_MAX`, the filter selects exactly the records whose primary index is `1`.  For a
two-record stream with primary indices `1` and `k > 1` both are selected with no token,
and only the first with the token `1` when `k < INT32_MAX`. -/
theorem default_and_single_index_selection :
    (∀ nreads, rangeParser nreads [] = .ok [1, INT32_MAX]) ∧
    rangesOf [1, INT32_MAX] = [(1, INT32_MAX)] ∧
    (∀ ars : List Int, (∀ ar ∈ ars, 1 ≤ ar ∧ ar ≤ INT32_MAX) →
      selected [1, INT32_MAX] ars = .ok (ars.map (fun _ => true))) ∧
    (∀ nreads, rangeParser nreads ["1"] = .ok [1, 1, INT32_MAX]) ∧
    (∀ ars : List Int, ars.Pairwise (fun a b => a ≤ b) →
      (∀ ar ∈ ars, 1 ≤ ar ∧ ar < INT32_MAX) →
      selected [1, 1, INT32_MAX] ars = .ok (ars.map (fun ar => decide (ar = 1)))) ∧
    (∀ k : Int, 1 < k → k ≤ INT32_MAX → selected [1, INT32_MAX] [1, k] = .ok [true, true]) ∧
    (∀ k : Int, 1 < k → k < INT32_MAX →
      selected [1, 1, INT32_MAX] [1, k] = .ok [true, false]) := by
  refine ⟨fun _ => rfl, rfl, selected_default, fun _ => rfl, ?_, ?_, ?_⟩
  · intro ars hs h
    exact selected_single ars hs (fun ar har => (h ar har).2)
  · intro k h1 h2
    have := selected_default [1, k] (by
      intro ar har
      simp only [List.mem_cons, List.mem_singleton, List.mem_nil_iff, or_false] at har
      rcases har with rfl | rfl
      · decide
      · exact ⟨by omega, h2⟩)
    simpa using this
  · intro k h1 h2
    have := selected_single [1, k] (by simp; omega) (by
      intro ar har
      simp only [List.mem_cons, List.mem_singleton, List.mem_nil_iff, or_false] at har
      rcases har with rfl | rfl
      · decide
      · exact h2)
    have hk : ¬ k = 1 := by omega
    simpa [hk] using this

theorem default_and_single_index_selection_witness :
    selected [1, INT32_MAX] [1, 7] = .ok [true, true] ∧
    selected [1, 1, INT32_MAX] [1, 7] = .ok [true, false] :=
  ⟨default_and_single_index_selection.2.2.2.2.2.1 7 (by decide) (by decide),
   default_and_single_index_selection.2.2.2.2.2.2 7 (by decide) (by decide)⟩

/-- C5, the claim as stated fails at `k = INT32_MAX`: with the token `1` the array is
`1, 1, INT32_MAX`, and for the stream `1, INT32_MAX` the second record takes the filter
past the sentinel: after `npt = pts[2]` the test `ar < npt` fails and `pts[3]` is read,
beyond `reps = 3`, so that the record is not classified as unselected. -/
theorem single_index_reads_past_sentinel :
    rangeParser 100 ["1"] = .ok [1, 1, INT32_MAX] ∧
    (1 : Int) < INT32_MAX ∧
    selected [1, 1, INT32_MAX] [1, INT32_MAX] = .error .OutOfBounds ∧
    selected [1, 1, INT32_MAX] [1, INT32_MAX] ≠ .ok [true, false] := by
  refine ⟨rfl, by decide, by decide, by decide⟩

/-- C7 (as amended): the label is `contains` exactly for the records with `sLen < qLen`,
`bbpos < 1` and `sLen - bepos < 1`, `contained` exactly for the records with
`qLen < sLen`, `abpos < 1` and `qLen - aepos < 1`, and `overlap` for every other
record.  So every record with `sStart = 0`, `sEnd = sLen`, `sLen < qLen` (on the stored or
on the displayed subject coordinates) is labelled `contains`, every record with
`qStart = 0`, `qEnd = qLen`, `qLen < sLen` is labelled `contained`, every record that
satisfies the coordinate invariant and neither condition is labelled `overlap`, and
every record gets exactly one of the three labels. -/
theorem containment_label (o : OverlapRecord) :
    (classify o = .contains ↔ o.blen < o.alen ∧ o.bbpos ≤ 0 ∧ o.blen ≤ o.bepos) ∧
    (classify o = .contained ↔ o.alen < o.blen ∧ o.abpos ≤ 0 ∧ o.alen ≤ o.aepos) ∧
    (classify o = .overlap ↔
      ¬ (o.blen < o.alen ∧ o.bbpos ≤ 0 ∧ o.blen ≤ o.bepos) ∧
      ¬ (o.alen < o.blen ∧ o.abpos ≤ 0 ∧ o.alen ≤ o.aepos)) ∧
    (o.bbpos = 0 ∧ o.bepos = o.blen ∧ o.blen < o.alen → classify o = .contains) ∧
    ((subjectCoords o).1 = 0 ∧ (subjectCoords o).2 = o.blen ∧ o.blen < o.alen →
      classify o = .contains) ∧
    (o.abpos = 0 ∧ o.aepos = o.alen ∧ o.alen < o.blen → classify o = .contained) ∧
    (o.WellFormed → ¬ (o.bbpos = 0 ∧ o.bepos = o.blen ∧ o.blen < o.alen) →
      ¬ (o.abpos = 0 ∧ o.aepos = o.alen ∧ o.alen < o.blen) → classify o = .overlap) ∧
    (o.WellFormed →
      ¬ ((subjectCoords o).1 = 0 ∧ (subjectCoords o).2 = o.blen ∧ o.blen < o.alen) →
      ¬ (o.abpos = 0 ∧ o.aepos = o.alen ∧ o.alen < o.blen) → classify o = .overlap) ∧
    (classify o = .contains ∨ classify o = .contained ∨ classify o = .overlap) := by
  have hA : classify o = .contains ↔ o.blen < o.alen ∧ o.bbpos ≤ 0 ∧ o.blen ≤ o.bepos := by
    unfold classify
    constructor
    · intro h
      split at h
      · omega
      · split at h <;> exact absurd h (by simp)
    · intro h
      rw [if_pos (by omega)]
  have hB : classify o = .contained ↔ o.alen < o.blen ∧ o.abpos ≤ 0 ∧ o.alen ≤ o.aepos := by
    unfold classify
    constructor
    · intro h
      split at h
      · exact absurd h (by simp)
      · split at h
        · omega
        · exact absurd h (by simp)
    · intro h
      rw [if_neg (by omega), if_pos (by omega)]
  have hC : classify o = .overlap ↔
      ¬ (o.blen < o.alen ∧ o.bbpos ≤ 0 ∧ o.blen ≤ o.bepos) ∧
      ¬ (o.alen < o.blen ∧ o.abpos ≤ 0 ∧ o.alen ≤ o.aepos) := by
    unfold classify
    constructor
    · intro h
      split at h
      · exact absurd h (by simp)
      · split at h
        · exact absurd h (by simp)
        · constructor <;> omega
    · intro h
      rw [if_neg (by omega), if_neg (by omega)]
  have hS : (subjectCoords o).1 = 0 ∧ (subjectCoords o).2 = o.blen ↔
      o.bbpos = 0 ∧ o.bepos = o.blen := by
    rw [subjectCoords_eq]
    cases o.comp
    · simp
    · simp only [if_true]
      omega
  refine ⟨hA, hB, hC, ?_, ?_, ?_, ?_, ?_, ?_⟩
  · intro h; exact hA.2 (by omega)
  · rintro ⟨h1, h2, h3⟩
    have := hS.1 ⟨h1, h2⟩
    exact hA.2 (by omega)
  · intro h; exact hB.2 (by omega)
  · intro hw h1 h2
    unfold OverlapRecord.WellFormed at hw
    exact hC.2 ⟨by omega, by omega⟩
  · intro hw h1 h2
    unfold OverlapRecord.WellFormed at hw
    have h3 : ¬ (o.bbpos = 0 ∧ o.bepos = o.blen ∧ o.blen < o.alen) := by
      rintro ⟨a, b, c⟩
      exact h1 ⟨(hS.2 ⟨a, b⟩).1, (hS.2 ⟨a, b⟩).2, c⟩
    exact hC.2 ⟨by omega, by omega⟩
  · unfold classify
    split
    · exact Or.inl rfl
    · split
      · exact Or.inr (Or.inl rfl)
      · exact Or.inr (Or.inr rfl)

theorem containment_label_witness :
    classify ⟨100, 900, 0, 500, true, 1000, 500⟩ = .contains ∧
    classify ⟨0, 400, 300, 700, false, 400, 1000⟩ = .contained ∧
    OverlapRecord.WellFormed ⟨600, 1000, 0, 400, false, 1000, 800⟩ ∧
    classify ⟨600, 1000, 0, 400, false, 1000, 800⟩ = .overlap :=
  ⟨(containment_label ⟨100, 900, 0, 500, true, 1000, 500⟩).2.2.2.1 (by decide),
   (containment_label ⟨0, 400, 300, 700, false, 400, 1000⟩).2.2.2.2.2.1 (by decide),
   by decide,
   (containment_label ⟨600, 1000, 0, 400, false, 1000, 800⟩).2.2.2.2.2.2.1
     (by decide) (by decide) (by decide)⟩

/-- C7, the claim as stated fails: the record with `qLen = 10`, `sLen = 5`, query
`[0, 10]` and stored subject `[0, 6]` has `sEnd ≠ sLen` and `qLen > sLen`, so it
satisfies neither condition, and yet it is labelled `contains`, not `overlap`, because
the code tests `sLen - bepos < 1`. -/
theorem containment_label_beyond_end :
    classify ⟨0, 10, 0, 6, false, 10, 5⟩ = .contains ∧
    classify ⟨0, 10, 0, 6, false, 10, 5⟩ ≠ .overlap ∧
    ¬ ((subjectCoords ⟨0, 10, 0, 6, false, 10, 5⟩).1 = 0 ∧
       (subjectCoords ⟨0, 10, 0, 6, false, 10, 5⟩).2 = (5 : Int) ∧ (5 : Int) < 10) ∧
    ¬ ((0 : Int) = 0 ∧ (10 : Int) = 10 ∧ (10 : Int) < 5) := by
  refine ⟨by decide, by decide, by decide, by decide⟩

/-- C8: range normalization is idempotent.  For every list `rs` of valid ranges
(`1 ≤ start ≤ end`, an `int`) the finalized array `pts` of the parser is the default
array when `rs` is empty and the sort-and-merge result otherwise; sorting and merging the
ranges of `pts` once more, whatever order `qsort` leaves equal starts in, gives the same
range list, and when `rs` is not empty the very same boundary array. -/
theorem merge_idempotent (rs s1 s2 : List (Int × Int)) (pts : List Int)
    (hvalid : ∀ r ∈ rs, 1 ≤ r.1 ∧ r.1 ≤ r.2 ∧ r.2 ≤ INT32_MAX)
    (h1 : QsortResult rs s1)
    (hpts : pts = if rs = [] then [1, INT32_MAX] else mergePass s1)
    (h2 : QsortResult (rangesOf pts) s2) :
    rangesOf (mergePass s2) = rangesOf pts ∧ (rs ≠ [] → mergePass s2 = pts) := by
  by_cases hrs : rs = []
  · rw [if_pos hrs] at hpts
    subst hpts
    have h3 : s2 = [(1, INT32_MAX)] := List.perm_singleton.1 h2.1
    subst h3
    exact ⟨rfl, fun h => absurd hrs h⟩
  · rw [if_neg hrs] at hpts
    subst hpts
    rw [rangesOf_mergePass] at h2 ⊢
    have hs1 : ∀ r ∈ s1, 1 ≤ r.1 ∧ r.1 ≤ r.2 ∧ r.2 ≤ INT32_MAX :=
      fun r hr => hvalid r (h1.1.subset hr)
    have hmin : INT32_MIN < 1 := by decide
    have hg : GapSorted (mergeRanges s1) :=
      mergeRanges_gapSorted s1 (fun r hr => ⟨(hs1 r hr).2.1, by have := (hs1 r hr).1; omega,
        by have := hs1 r hr; omega⟩)
    have hst : ∀ q ∈ mergeRanges s1, 1 ≤ q.1 ∧ q.1 ≤ INT32_MAX :=
      mergeRanges_starts (fun x => 1 ≤ x ∧ x ≤ INT32_MAX) s1
        (fun r hr => ⟨(hs1 r hr).1, by have := hs1 r hr; omega⟩)
    have hs2 : s2 = mergeRanges s1 :=
      qsort_unique (fun r hr => ⟨by have := (hst r hr).1; omega, (hst r hr).2⟩)
        hg.starts_increase h2
    subst hs2
    have hidem : mergeRanges (mergeRanges s1) = mergeRanges s1 :=
      mergeRanges_of_gapSorted hg (fun r hr => ⟨by have := (hst r hr).1; omega, (hst r hr).2⟩)
    refine ⟨?_, fun _ => ?_⟩
    · rw [rangesOf_mergePass, hidem]
    · rw [mergePass_eq, hidem, ← mergePass_eq]

theorem merge_idempotent_witness :
    (∀ r ∈ [((15 : Int), (25 : Int)), (10, 20), (30, 30)],
      1 ≤ r.1 ∧ r.1 ≤ r.2 ∧ r.2 ≤ INT32_MAX) ∧
    QsortResult [(15, 25), (10, 20), (30, 30)] [(10, 20), (15, 25), (30, 30)] ∧
    QsortResult (rangesOf [10, 25, 30, 30, INT32_MAX]) [(10, 25), (30, 30)] ∧
    rangesOf (mergePass [(10, 25), (30, 30)]) = rangesOf [10, 25, 30, 30, INT32_MAX] ∧
    (([((15 : Int), (25 : Int)), (10, 20), (30, 30)] : List (Int × Int)) ≠ [] →
      mergePass [(10, 25), (30, 30)] = [10, 25, 30, 30, INT32_MAX]) :=
  have hq1 : QsortResult [(15, 25), (10, 20), (30, 30)] [(10, 20), (15, 25), (30, 30)] :=
    ⟨List.Perm.swap _ _ _, by decide⟩
  have hq2 : QsortResult (rangesOf [10, 25, 30, 30, INT32_MAX]) [(10, 25), (30, 30)] :=
    ⟨List.Perm.refl _, by decide⟩
  ⟨by decide, hq1, hq2,
   merge_idempotent [(15, 25), (10, 20), (30, 30)] [(10, 20), (15, 25), (30, 30)]
     [(10, 25), (30, 30)] [10, 25, 30, 30, INT32_MAX] (by decide) hq1 rfl hq2⟩

/-- C9: complement reflection of subject coordinates is an involution: for every length
`L` and every `(start, end)`, applying `(start, end) ↦ (L - end, L - start)` twice with
the same `L` returns `(start, end)`. -/
theorem reflect_involution (L s e : Int) :
    reflect L (s, e) = (L - e, L - s) ∧ reflect L (reflect L (s, e)) = (s, e) := by
  unfold reflect
  simp

/-- C10: for every normalized boundary array `pts` of length `reps` and every
non-decreasing stream with primary indices in `[1, INT32_MAX)`, no read `pts[idx]` leaves
the array (the run delivers a state after every record), the cursor `idx` starts at `1`
and never decreases from one record to the next, it never exceeds `reps`, and the number
of advances over the whole stream is at most two per range, whatever the number of
records. -/
theorem filter_cursor_bounded (pts ars : List Int) (hpts : Normalized pts)
    (hsorted : ars.Pairwise (fun a b => a ≤ b))
    (hrange : ∀ ar ∈ ars, 1 ≤ ar ∧ ar < INT32_MAX) :
    ∃ sts, runFilter pts ars = .ok sts ∧ sts.length = ars.length ∧
      (1 :: sts.map (fun s => s.idx)).Chain' (fun a b => a ≤ b) ∧
      ∀ s ∈ sts, s.idx ≤ pts.length ∧ s.idx - 1 ≤ 2 * (rangesOf pts).length := by
  obtain ⟨sts, h1, hflags, hchain, hall⟩ :=
    runFilter_of_normalized pts ars hpts hsorted (fun ar h => (hrange ar h).2)
  refine ⟨sts, h1, ?_, hchain, hall⟩
  have := congrArg List.length hflags
  simpa using this

theorem filter_cursor_bounded_witness :
    Normalized [10, 25, 30, 30, INT32_MAX] ∧
    [1, 10, 26, 30, 31, 40, 50].Pairwise (fun (a b : Int) => a ≤ b) ∧
    (∀ ar ∈ [1, 10, 26, 30, 31, 40, 50], (1 : Int) ≤ ar ∧ ar < INT32_MAX) ∧
    ∃ sts, runFilter [10, 25, 30, 30, INT32_MAX] [1, 10, 26, 30, 31, 40, 50] = .ok sts ∧
      sts.length = 7 ∧
      (1 :: sts.map (fun s => s.idx)).Chain' (fun a b => a ≤ b) ∧
      ∀ s ∈ sts, s.idx ≤ 5 ∧ s.idx - 1 ≤ 2 * 2 :=
  ⟨by decide, by decide, by decide,
   filter_cursor_bounded [10, 25, 30, 30, INT32_MAX] [1, 10, 26, 30, 31, 40, 50]
     (by decide) (by decide) (by decide)⟩

/-- C11, what the code does: the growth step multiplies the trace length by
`(int) 1.2 = 1`, so the new capacity is `tlen + 100` and not `1.2 * tlen`.  From the
capacity `1000` a record with trace length `1001` gives the capacity `1101`, and
`10 * 1101 < 12 * 1001`; in general, for every capacity of at least `1000` and every
larger trace length for which `tlen + 100` is an `int`, the new capacity is below
`1.2 * tlen`. -/
theorem trace_growth_not_geometric :
    CAST_1_2 = 1 ∧ growTmax 1000 1001 = 1101 ∧ ¬ (10 * growTmax 1000 1001 ≥ 12 * 1001) ∧
    ∀ tmax tlen : Int, INITIAL_TMAX ≤ tmax → tmax < tlen → tlen ≤ INT32_MAX - 100 →
      growTmax tmax tlen = tlen + 100 ∧ 10 * growTmax tmax tlen < 12 * tlen := by
  refine ⟨by decide, by decide, by decide, ?_⟩
  intro tmax tlen h0 h1 h2
  unfold INITIAL_TMAX at h0
  have hmin : INT32_MIN ≤ tlen := by unfold INT32_MIN; omega
  rw [growTmax_eq hmin h2, if_pos (by omega)]
  exact ⟨rfl, by omega⟩

/-- C12 (as amended): the trace-buffer capacity is never shrunk and is always
sufficient as long as `tlen + 100` is an `int`: starting from the capacity `1000`, for
every sequence of trace lengths in `[0, INT32_MAX - 100]`, the capacity after the growth
step of each record is at least the capacity before it and at least the trace length of
that record. -/
theorem trace_capacity_never_shrinks (tlens : List Int)
    (h : ∀ t ∈ tlens, 0 ≤ t ∧ t ≤ INT32_MAX - 100) :
    NeverShrinks INITIAL_TMAX tlens (capacities INITIAL_TMAX tlens) :=
  capacities_neverShrinks tlens INITIAL_TMAX h

theorem trace_capacity_never_shrinks_witness :
    (∀ t ∈ [5, 1001, 900, 2000, 0], (0 : Int) ≤ t ∧ t ≤ INT32_MAX - 100) ∧
    capacities INITIAL_TMAX [5, 1001, 900, 2000, 0] = [1000, 1101, 1101, 2100, 2100] ∧
    NeverShrinks INITIAL_TMAX [5, 1001, 900, 2000, 0]
      (capacities INITIAL_TMAX [5, 1001, 900, 2000, 0]) :=
  ⟨by decide, by decide, trace_capacity_never_shrinks [5, 1001, 900, 2000, 0] (by decide)⟩

/-- C12, the claim as stated fails: for the single non-negative trace length
`INT32_MAX` the sum `tlen + 100` leaves the range of `int`, the capacity after the growth
step is `INT32_MIN + 99`, below the capacity `1000` before it and below the trace
length. -/
theorem trace_capacity_wraps :
    (0 : Int) ≤ INT32_MAX ∧
    capacities INITIAL_TMAX [INT32_MAX] = [INT32_MIN + 99] ∧
    ¬ NeverShrinks INITIAL_TMAX [INT32_MAX] (capacities INITIAL_TMAX [INT32_MAX]) := by
  refine ⟨by decide, by decide, by decide⟩

/-- C14: the trace element width chosen from the header is 1 byte if and only if the
trace spacing is at most the threshold `TRACE_XOVR`, and 2 bytes otherwise; a spacing
equal to the threshold selects 1-byte elements, and the flag `small` is set exactly
then. -/
theorem trace_width_threshold (TRACE_XOVR tspace : Int) :
    ((traceWidth TRACE_XOVR tspace).2 = 1 ↔ tspace ≤ TRACE_XOVR) ∧
    ((traceWidth TRACE_XOVR tspace).2 = 2 ↔ TRACE_XOVR < tspace) ∧
    ((traceWidth TRACE_XOVR tspace).1 = true ↔ tspace ≤ TRACE_XOVR) ∧
    (traceWidth TRACE_XOVR TRACE_XOVR).2 = 1 := by
  unfold traceWidth
  refine ⟨?_, ?_, ?_, ?_⟩
  · split <;> simp <;> omega
  · split <;> simp <;> omega
  · split <;> simp <;> omega
  · simp

/-- C15 (as amended): for every `BORDER ≥ 0` and every record with
`0 ≤ abpos ≤ aepos ≤ alen` and `0 ≤ bbpos ≤ bepos ≤ blen` for which `aepos + BORDER` and
`subjectEnd + BORDER` do not exceed `INT32_MAX`, the display windows are the aligned
intervals padded by `BORDER` on each side and clipped to `[0, length]`:
`amin = max(0, abpos - BORDER)`, `amax = min(alen, aepos + BORDER)`, and `bmin`, `bmax`
likewise from the subject coordinates, stored when the complement flag is clear and
reflected when it is set; hence `0 ≤ amin ≤ abpos ≤ aepos ≤ amax ≤ alen` and
`0 ≤ bmin ≤ subjectStart ≤ subjectEnd ≤ bmax ≤ blen`. -/
theorem display_window_clipped (BORDER : Int) (o : OverlapRecord) (hB : 0 ≤ BORDER)
    (hw : o.WellFormed)
    (hfit : o.aepos + BORDER ≤ INT32_MAX ∧ (subjectCoords o).2 + BORDER ≤ INT32_MAX) :
    (displayWindow BORDER o).amin = max 0 (o.abpos - BORDER) ∧
    (displayWindow BORDER o).amax = min o.alen (o.aepos + BORDER) ∧
    (displayWindow BORDER o).bmin = max 0 ((subjectCoords o).1 - BORDER) ∧
    (displayWindow BORDER o).bmax = min o.blen ((subjectCoords o).2 + BORDER) ∧
    (0 ≤ (displayWindow BORDER o).amin ∧ (displayWindow BORDER o).amin ≤ o.abpos ∧
      o.abpos ≤ o.aepos ∧ o.aepos ≤ (displayWindow BORDER o).amax ∧
      (displayWindow BORDER o).amax ≤ o.alen) ∧
    (0 ≤ (displayWindow BORDER o).bmin ∧
      (displayWindow BORDER o).bmin ≤ (subjectCoords o).1 ∧
      (subjectCoords o).1 ≤ (subjectCoords o).2 ∧
      (subjectCoords o).2 ≤ (displayWindow BORDER o).bmax ∧
      (displayWindow BORDER o).bmax ≤ o.blen) := by
  obtain ⟨ha0, ha1, ha2, hb0, hb1, hb2⟩ := hw
  obtain ⟨hfa, hfb⟩ := hfit
  have hmin : INT32_MIN = -2147483648 := rfl
  have hmax : INT32_MAX = 2147483647 := rfl
  have hamin : (displayWindow BORDER o).amin = max 0 (o.abpos - BORDER) := by
    have : (displayWindow BORDER o).amin = clipLow o.abpos BORDER := by
      unfold displayWindow; split <;> rfl
    rw [this, clipLow_eq (by omega) (by omega)]
  have hamax : (displayWindow BORDER o).amax = min o.alen (o.aepos + BORDER) := by
    have : (displayWindow BORDER o).amax = clipHigh o.aepos BORDER o.alen := by
      unfold displayWindow; split <;> rfl
    rw [this, clipHigh_eq (by omega) (by omega)]
  have hb : (displayWindow BORDER o).bmin = max 0 ((subjectCoords o).1 - BORDER) ∧
      (displayWindow BORDER o).bmax = min o.blen ((subjectCoords o).2 + BORDER) ∧
      (subjectCoords o).1 ≤ (subjectCoords o).2 ∧ 0 ≤ (subjectCoords o).1 ∧
      (subjectCoords o).2 ≤ o.blen := by
    rw [subjectCoords_eq] at hfb ⊢
    unfold displayWindow
    cases hc : o.comp
    · rw [hc] at hfb
      simp only [Bool.false_eq_true, if_false] at hfb ⊢
      rw [clipLow_eq (by omega) (by omega), clipHigh_eq (by omega) (by omega)]
      exact ⟨rfl, rfl, hb1, hb0, hb2⟩
    · rw [hc] at hfb
      simp only [if_true] at hfb ⊢
      rw [clipLow_eq (by omega) (by omega), clipHigh_eq (by omega) (by omega)]
      exact ⟨rfl, rfl, by omega, by omega, by omega⟩
  obtain ⟨hbmin, hbmax, hs1, hs0, hs2⟩ := hb
  refine ⟨hamin, hamax, hbmin, hbmax, ?_, ?_⟩
  · rw [hamin, hamax]
    omega
  · rw [hbmin, hbmax]
    omega

theorem display_window_clipped_witness :
    (0 : Int) ≤ 10 ∧ OverlapRecord.WellFormed ⟨5, 100, 20, 80, true, 105, 90⟩ ∧
    displayWindow 10 ⟨5, 100, 20, 80, true, 105, 90⟩ = ⟨0, 105, 0, 80⟩ ∧
    subjectCoords ⟨5, 100, 20, 80, true, 105, 90⟩ = (10, 70) ∧
    (displayWindow 10 ⟨5, 100, 20, 80, true, 105, 90⟩).bmax = min 90 (70 + 10) :=
  ⟨by decide, by decide, by decide, by decide,
   (display_window_clipped 10 ⟨5, 100, 20, 80, true, 105, 90⟩ (by decide) (by decide)
     (by decide)).2.2.2.1⟩

/-- C15, the claim as stated fails: with `BORDER = INT32_MAX` and the record with
`abpos = bbpos = 0`, `aepos = bepos = 1`, `alen = blen = 1` the sum `aepos + BORDER` leaves
the range of `int`, `amax` is `INT32_MIN`, which is neither `min(alen, aepos + BORDER)`
nor at least `aepos`. -/
theorem display_window_wraps :
    (0 : Int) ≤ INT32_MAX ∧ OverlapRecord.WellFormed ⟨0, 1, 0, 1, false, 1, 1⟩ ∧
    (displayWindow INT32_MAX ⟨0, 1, 0, 1, false, 1, 1⟩).amax = INT32_MIN ∧
    (displayWindow INT32_MAX ⟨0, 1, 0, 1, false, 1, 1⟩).amax ≠ min 1 (1 + INT32_MAX) ∧
    ¬ ((1 : Int) ≤ (displayWindow INT32_MAX ⟨0, 1, 0, 1, false, 1, 1⟩).amax) := by
  refine ⟨by decide, by decide, by decide, by decide, by decide⟩

/-- C18: complement reflection preserves the coordinate invariant and the aligned span:
for every subject length `rlen` and stored coordinates with `0 ≤ bbpos ≤ bepos ≤ rlen`,
the reflected pair `(rlen - bepos, rlen - bbpos)` satisfies
`0 ≤ bbpos' ≤ bepos' ≤ rlen` and `bepos' - bbpos' = bepos - bbpos`. -/
theorem reflect_preserves_invariant (rlen bbpos bepos : Int)
    (h : 0 ≤ bbpos ∧ bbpos ≤ bepos ∧ bepos ≤ rlen) :
    reflect rlen (bbpos, bepos) = (rlen - bepos, rlen - bbpos) ∧
    0 ≤ (reflect rlen (bbpos, bepos)).1 ∧
    (reflect rlen (bbpos, bepos)).1 ≤ (reflect rlen (bbpos, bepos)).2 ∧
    (reflect rlen (bbpos, bepos)).2 ≤ rlen ∧
    (reflect rlen (bbpos, bepos)).2 - (reflect rlen (bbpos, bepos)).1 = bepos - bbpos := by
  unfold reflect
  refine ⟨rfl, ?_, ?_, ?_, ?_⟩ <;> simp only <;> omega

theorem reflect_preserves_invariant_witness :
    ((0 : Int) ≤ 20 ∧ (20 : Int) ≤ 80 ∧ (80 : Int) ≤ 90) ∧
    reflect 90 (20, 80) = (10, 70) ∧ (70 : Int) - 10 = 80 - 20 :=
  ⟨by decide, (reflect_preserves_invariant 90 20 80 (by decide)).1, by decide⟩

/-- C19: the label of the tabular output, computed from the stored subject coordinates,
is the label the same test gives on the reflected subject coordinates: for every record,
classifying with `(bbpos, bepos)` and with `(blen - bepos, blen - bbpos)` agree, so that
for either value of the complement flag the label is the one the test gives on the
subject coordinates printed on the line. -/
theorem label_same_on_reflected (o : OverlapRecord) :
    classify o = classifyAt o (o.bbpos, o.bepos) ∧
    classifyAt o (reflect o.blen (o.bbpos, o.bepos)) = classifyAt o (o.bbpos, o.bepos) ∧
    classifyAt o (o.blen - o.bepos, o.blen - o.bbpos) = classify o ∧
    classifyAt o (subjectCoords o) = classify o := by
  have h1 : classify o = classifyAt o (o.bbpos, o.bepos) := rfl
  have h2 : classifyAt o (o.blen - o.bepos, o.blen - o.bbpos) =
      classifyAt o (o.bbpos, o.bepos) := by
    unfold classifyAt
    simp only
    by_cases hA : o.blen < o.alen ∧ o.bbpos < 1 ∧ o.blen - o.bepos < 1
    · rw [if_pos hA, if_pos (by omega)]
    · rw [if_neg hA, if_neg (by omega)]
  refine ⟨h1, h2, by rw [h1, h2], ?_⟩
  rw [subjectCoords_eq]
  cases o.comp
  · exact h1.symm
  · rw [h1]; exact h2

/-- C20: every integer division by the trace spacing, the one for the column width
`tp_wide` and the two of `tps = (aepos-1)/tspace - abpos/tspace`, is executed only with
`tspace > 0`: for every header, range array, option and record stream the guarded block
never divides by zero; and when the trace spacing of the header is `≤ 0` no record is
read, filtered or rendered, whatever the records of the file. -/
theorem trace_spacing_guard (pts : List Int) (ICE_FL : Bool) (tspace maxlen1 maxlen2 : Int)
    (records : List (Int × OverlapRecord)) :
    displayRecords pts ICE_FL tspace maxlen1 maxlen2 records ≠ .error .DivisionByZero ∧
    (tspace ≤ 0 → displayRecords pts ICE_FL tspace maxlen1 maxlen2 records = .ok []) ∧
    (0 < tspace → ∀ o : OverlapRecord,
      tpWideArg maxlen1 maxlen2 tspace ≠ .error .DivisionByZero ∧
      tracePoints o tspace =
        .ok (Int.tdiv (o.aepos - 1) tspace - Int.tdiv o.abpos tspace)) := by
  refine ⟨?_, ?_, ?_⟩
  · unfold displayRecords
    by_cases h : tspace > 0
    · rw [if_pos h]
      cases initFilter pts with
      | error f => simp
      | ok st =>
        simp only
        have h1 := tpWideArg_no_division_by_zero maxlen1 maxlen2 tspace h
        cases ht : tpWideArg maxlen1 maxlen2 tspace with
        | error e =>
          simp only
          intro he
          injection he with he
          rw [ht, he] at h1
          exact h1 rfl
        | ok q =>
          simp only
          exact recordLoop_no_division_by_zero pts ICE_FL tspace h records st
    · rw [if_neg h]
      simp
  · intro h
    unfold displayRecords
    rw [if_neg (by omega)]
  · intro h o
    exact ⟨tpWideArg_no_division_by_zero maxlen1 maxlen2 tspace h, tracePoints_ok o tspace h⟩

theorem trace_spacing_guard_witness :
    displayRecords [1, INT32_MAX] false 0 5000 6000
      [(1, ⟨5, 100, 20, 80, true, 105, 90⟩), (3, ⟨0, 1000, 20, 80, true, 1005, 90⟩)] = .ok [] ∧
    displayRecords [1, INT32_MAX] false 100 5000 6000
      [(1, ⟨5, 100, 20, 80, true, 105, 90⟩), (3, ⟨0, 1000, 20, 80, true, 1005, 90⟩)] =
      .ok [some 0, some 9] ∧
    tracePoints ⟨0, 1000, 20, 80, true, 1005, 90⟩ 100 = .ok 9 :=
  ⟨(trace_spacing_guard [1, INT32_MAX] false 0 5000 6000
      [(1, ⟨5, 100, 20, 80, true, 105, 90⟩), (3, ⟨0, 1000, 20, 80, true, 1005, 90⟩)]).2.1
      (by decide),
   by decide,
   ((trace_spacing_guard [1, INT32_MAX] false 100 5000 6000 []).2.2 (by decide)
      ⟨0, 1000, 20, 80, true, 1005, 90⟩).2⟩

/-- C16: normalization preserves coverage.  For every list of valid ranges
(`1 ≤ b ≤ e`, an `int`), every order `sorted` in which `qsort` may leave them and every
index `i` (below `INT32_MAX` or not), `i` lies in some range of the merged output, the
trailing sentinel excluded, if and only if `i` lies in at least one of the input
ranges. -/
theorem merge_preserves_coverage (rs sorted : List (Int × Int)) (i : Int)
    (hvalid : ∀ r ∈ rs, 1 ≤ r.1 ∧ r.1 ≤ r.2 ∧ r.2 ≤ INT32_MAX)
    (hsort : QsortResult rs sorted) :
    inSomeRange (rangesOf (mergePass sorted)) i = inSomeRange rs i := by
  have hmin : INT32_MIN < 1 := by decide
  have hall : ∀ r ∈ sorted, r.1 ≤ r.2 ∧ INT32_MIN < r.1 ∧ r.1 ≤ INT32_MAX := by
    intro r hr
    have := hvalid r (hsort.1.subset hr)
    exact ⟨this.2.1, by omega, by omega⟩
  have hsorted := qsort_sorted (fun r hr => ⟨by have := (hvalid r hr).1; omega,
    by have := hvalid r hr; omega⟩) hsort
  rw [rangesOf_mergePass, mergeRanges_cover i sorted hsorted hall]
  exact inSomeRange_perm hsort.1 i

theorem merge_preserves_coverage_witness :
    (∀ r ∈ [((15 : Int), (25 : Int)), (10, 20), (30, 30)],
      1 ≤ r.1 ∧ r.1 ≤ r.2 ∧ r.2 ≤ INT32_MAX) ∧
    QsortResult [(15, 25), (10, 20), (30, 30)] [(10, 20), (15, 25), (30, 30)] ∧
    rangesOf (mergePass [(10, 20), (15, 25), (30, 30)]) = [(10, 25), (30, 30)] ∧
    inSomeRange (rangesOf (mergePass [(10, 20), (15, 25), (30, 30)])) 22 =
      inSomeRange [(15, 25), (10, 20), (30, 30)] 22 ∧
    inSomeRange [(15, 25), (10, 20), (30, 30)] 22 = true :=
  have hq : QsortResult [(15, 25), (10, 20), (30, 30)] [(10, 20), (15, 25), (30, 30)] :=
    ⟨List.Perm.swap _ _ _, by decide⟩
  ⟨by decide, hq, by decide,
   merge_preserves_coverage [(15, 25), (10, 20), (30, 30)] [(10, 20), (15, 25), (30, 30)] 22
     (by decide) hq,
   by decide⟩

/-- C17 (as amended): the normalized range list depends neither on the order of the
range tokens nor on how `qsort` orders ranges with equal starts, as long as every range
start is at least `1`: for any two token lists that are permutations of each other, parse
successfully and have no start below `1`, and for any results of `qsort`, the finalized
boundary arrays are identical. -/
theorem normalization_order_independent (nreads : Int) (tokens tokens1 : List String)
    (parsed : List (Int × Int)) (pts pts1 : List Int)
    (hn : INT32_MIN ≤ nreads ∧ nreads ≤ INT32_MAX)
    (hperm : tokens.Perm tokens1)
    (hparse : parseArgs nreads tokens = .ok parsed)
    (hvalid : ∀ r ∈ parsed, 1 ≤ r.1)
    (hy : ParserYields nreads tokens pts) (hy1 : ParserYields nreads tokens1 pts1) :
    pts = pts1 := by
  cases tokens with
  | nil =>
    have : tokens1 = [] := List.Perm.eq_nil hperm.symm
    subst this
    have h1 : pts = [1, INT32_MAX] := hy
    have h2 : pts1 = [1, INT32_MAX] := hy1
    rw [h1, h2]
  | cons t ts =>
    cases tokens1 with
    | nil => exact absurd (List.Perm.eq_nil hperm) (by simp)
    | cons t1 ts1 =>
      obtain ⟨p, s, hp, hs, rfl⟩ := hy
      obtain ⟨p1, s1, hp1, hs1, rfl⟩ := hy1
      rw [hparse] at hp
      injection hp with hp
      subst hp
      have hpp : parsed.Perm p1 := parseArgs_perm hperm hparse hp1
      refine mergePass_perm_invariant hpp ?_ hs hs1
      intro r hr
      have := parseArgs_range hn hparse r hr
      exact ⟨hvalid r hr, this.1, this.2.2⟩

theorem normalization_order_independent_witness :
    ["15-25", "30", "10-20", "10-12"].Perm ["10-12", "10-20", "15-25", "30"] ∧
    ParserYields 100 ["15-25", "30", "10-20", "10-12"] [10, 25, 30, 30, INT32_MAX] ∧
    ParserYields 100 ["10-12", "10-20", "15-25", "30"] [10, 25, 30, 30, INT32_MAX] ∧
    ([10, 25, 30, 30, INT32_MAX] : List Int) = [10, 25, 30, 30, INT32_MAX] :=
  have hperm : ["15-25", "30", "10-20", "10-12"].Perm ["10-12", "10-20", "15-25", "30"] := by
    decide
  have hy : ParserYields 100 ["15-25", "30", "10-20", "10-12"] [10, 25, 30, 30, INT32_MAX] :=
    ⟨[(15, 25), (30, 30), (10, 20), (10, 12)], [(10, 20), (10, 12), (15, 25), (30, 30)], rfl,
      ⟨by decide, by decide⟩, rfl⟩
  have hy1 : ParserYields 100 ["10-12", "10-20", "15-25", "30"] [10, 25, 30, 30, INT32_MAX] :=
    ⟨[(10, 12), (10, 20), (15, 25), (30, 30)], [(10, 12), (10, 20), (15, 25), (30, 30)], rfl,
      ⟨List.Perm.refl _, by decide⟩, rfl⟩
  ⟨hperm, hy, hy1,
   normalization_order_independent 100 ["15-25", "30", "10-20", "10-12"]
     ["10-12", "10-20", "15-25", "30"] [(15, 25), (30, 30), (10, 20), (10, 12)]
     [10, 25, 30, 30, INT32_MAX] [10, 25, 30, 30, INT32_MAX] (by decide) hperm rfl
     (by decide) hy hy1⟩

/-- C17, the claim as stated fails: the tokens `1073741824` and `3221225472` parse
successfully, the second start being narrowed to `-1073741824`.  The difference of the
two starts is `2^31` in absolute value, so `ORDER` is negative for both orders of the pair
and `qsort` may leave either; the merge loop then ends with `[1073741824, 1073741824]`
alone for one order of the tokens and with both ranges for the other. -/
theorem normalization_order_dependent :
    ["1073741824", "3221225472"].Perm ["3221225472", "1073741824"] ∧
    parseArgs 100 ["1073741824", "3221225472"] =
      .ok [(1073741824, 1073741824), (-1073741824, -1073741824)] ∧
    ORDER (1073741824, 1073741824) (-1073741824, -1073741824) < 0 ∧
    ORDER (-1073741824, -1073741824) (1073741824, 1073741824) < 0 ∧
    rangeParser 100 ["1073741824", "3221225472"] =
      .ok [1073741824, 1073741824, INT32_MAX] ∧
    rangeParser 100 ["3221225472", "1073741824"] =
      .ok [-1073741824, -1073741824, 1073741824, 1073741824, INT32_MAX] ∧
    ParserYields 100 ["1073741824", "3221225472"] [1073741824, 1073741824, INT32_MAX] ∧
    ParserYields 100 ["3221225472", "1073741824"]
      [-1073741824, -1073741824, 1073741824, 1073741824, INT32_MAX] ∧
    ([1073741824, 1073741824, INT32_MAX] : List Int) ≠
      [-1073741824, -1073741824, 1073741824, 1073741824, INT32_MAX] := by
  refine ⟨by decide, rfl, by decide, by decide, rfl, rfl, ?_, ?_, by decide⟩
  · exact ⟨[(1073741824, 1073741824), (-1073741824, -1073741824)],
      [(1073741824, 1073741824), (-1073741824, -1073741824)], rfl,
      ⟨List.Perm.refl _, by decide⟩, rfl⟩
  · exact ⟨[(-1073741824, -1073741824), (1073741824, 1073741824)],
      [(-1073741824, -1073741824), (1073741824, 1073741824)], rfl,
      ⟨List.Perm.refl _, by decide⟩, rfl⟩

end LA4Ice
